import Mathlib

/-!
Verification of the Run Orchestration Engine in
`src/apps/worker/src/index.ts`: plan normalization, the bounded sequential
step executor with cooperative cancellation and turn-budget enforcement,
and artifact reconciliation.

The embedding translates the TypeScript source function by function.
JavaScript strings are modelled as Lean `String`/`List Char`; the
JavaScript string helpers used by the source (trim, toLowerCase, slice,
endsWith, includes, replace of a single character) are implemented
character-wise below so that every definition is executable and
kernel-reducible.  Machine integers do not occur: all counters are
JavaScript numbers used as small naturals.
-/

namespace Worker

/-- JS `String.prototype.toLowerCase` restricted to the per-character
lowering that the source relies on (all compared names are ASCII). -/
def lowerStr (s : String) : String :=
  String.mk (s.toList.map Char.toLower)

/-- Characters removed by JS `String.prototype.trim`. -/
def isTrimChar (c : Char) : Bool :=
  c.isWhitespace

/-- JS `value.trim()` on the character list. -/
def trimChars (s : List Char) : List Char :=
  ((s.dropWhile isTrimChar).reverse.dropWhile isTrimChar).reverse

/-- JS `value.trim()`. -/
def trimStr (s : String) : String :=
  String.mk (trimChars s.toList)

/-- Does `s` start with the pattern `pat`?  (`List.IsPrefix` as a Bool.) -/
def listStartsWith : List Char → List Char → Bool
  | _, [] => true
  | [], _ :: _ => false
  | a :: s, b :: p => a == b && listStartsWith s p

/-- Does `s` contain `pat` as a contiguous substring?
Models JS `String.prototype.includes` for a non-empty pattern. -/
def listContainsSeq : List Char → List Char → Bool
  | [], pat => pat.isEmpty
  | a :: rest, pat => listStartsWith (a :: rest) pat || listContainsSeq rest pat

/-- JS `s.includes(pat)`. -/
def containsSubstr (s pat : String) : Bool :=
  listContainsSeq s.toList pat.toList

/-- JS `s.endsWith(pat)`. -/
def endsWithStr (s pat : String) : Bool :=
  listStartsWith s.toList.reverse pat.toList.reverse

/-- JS `s.slice(0, n)` (the source only slices prompts, which are treated
as sequences of characters). -/
def takeChars (n : Nat) (s : String) : String :=
  String.mk (s.toList.take n)

/-- JS `Array.prototype.join(sep)`. -/
def joinWith (sep : String) : List String → String
  | [] => ""
  | x :: rest => rest.foldl (fun acc y => acc ++ sep ++ y) x

/-! ## Data model (src/apps/worker/src/index.ts:7-41)

In TypeScript the `role` field is annotated `PlanAgentRole`, but values
arriving from the Prompt Engine are arbitrary strings cast to that type
(src/apps/worker/src/index.ts:429), so the embedding uses `String` and
treats the four archetype names as the valid roles. -/

structure PlanAgent where
  name : String
  role : String
deriving DecidableEq

structure PlanStep where
  id : String
  title : String
  description : String
  agent : String
deriving DecidableEq

structure RunPlan where
  interpretedGoal : String
  steps : List PlanStep
  agents : List PlanAgent
  outputs : List String
  questions : List String
deriving DecidableEq

structure StepResult where
  stepId : String
  title : String
  agent : String
  output : String
deriving DecidableEq

/-- The reconciler's working unit `{path, content}`
(src/apps/worker/src/index.ts:544, 586-607). -/
structure ArtifactSpec where
  path : String
  content : String
deriving DecidableEq

/-! ## Constants (src/apps/worker/src/index.ts:73-81) -/

def MAX_STEPS : Nat := 8
def MAX_AGENTS : Nat := 4
def MAX_TURNS : Nat := 12
def REQUIRED_OUTPUTS : List String :=
  ["Next Actions.md", "Open Questions.md", "Sources.md"]
def OPTIONAL_OUTPUTS : List String := ["Outline.md", "Critique.md"]
def DEFAULT_MAIN_OUTPUT : String := "Brief.md"
def AGENT_ARCHETYPES : List String :=
  ["Researcher", "Writer", "Critic", "Organizer"]

/-- The lowercased reserved-name set built inside `buildOutputs`
(src/apps/worker/src/index.ts:164-166) and again before `mainArtifact`
selection (src/apps/worker/src/index.ts:611-613). -/
def RESERVED_LOWER : List String :=
  (REQUIRED_OUTPUTS ++ OPTIONAL_OUTPUTS).map lowerStr

/-! ## normalizeDocName (src/apps/worker/src/index.ts:129-139) -/

/-- `trimmed` (src/apps/worker/src/index.ts:130): trim, then replace every
backslash by a slash (per-character, the regex pattern is one character). -/
def normalizeDocTrimmed (value : String) : String :=
  String.mk ((trimChars value.toList).map
    (fun c => if c == '\\' then '/' else c))

/-- `stripped` (src/apps/worker/src/index.ts:134): drop leading slashes. -/
def normalizeDocStripped (value : String) : String :=
  String.mk ((normalizeDocTrimmed value).toList.dropWhile (· == '/'))

/-- `normalizeDocName`: reject empty, reject names containing `..`, and
force a `.md` suffix. -/
def normalizeDocName (value : String) : String :=
  if normalizeDocTrimmed value = "" then ""
  else if containsSubstr (normalizeDocStripped value) ".." then ""
  else if endsWithStr (normalizeDocStripped value) ".md" then
    normalizeDocStripped value
  else normalizeDocStripped value ++ ".md"

/-! ## uniqueByLowercase (src/apps/worker/src/index.ts:141-153)

The JS function inserts each non-empty value into a `Map` keyed by its
lowercase form, keeping the first occurrence, and returns the values in
insertion order.  `seen` accumulates the lowercase keys already present. -/

def uniqueByLowercaseGo : List String → List String → List String
  | [], _ => []
  | v :: rest, seen =>
    if v = "" then uniqueByLowercaseGo rest seen
    else if seen.contains (lowerStr v) then uniqueByLowercaseGo rest seen
    else v :: uniqueByLowercaseGo rest (lowerStr v :: seen)

def uniqueByLowercase (values : List String) : List String :=
  uniqueByLowercaseGo values []

/-! ## buildOutputs (src/apps/worker/src/index.ts:155-173) -/

/-- One iteration of the `for (const required of REQUIRED_OUTPUTS)` push
loop (src/apps/worker/src/index.ts:158-162). -/
def pushRequired (acc : List String) (required : String) : List String :=
  if acc.any (fun output => lowerStr output == lowerStr required) then acc
  else acc ++ [required]

/-- The whole push loop, expressed as a fold. -/
def addRequiredOutputs (normalized : List String) : List String :=
  REQUIRED_OUTPUTS.foldl pushRequired normalized

/-- The `normalized` list (src/apps/worker/src/index.ts:156). -/
def buildOutputsNormalized (outputs : List String) : List String :=
  uniqueByLowercase ((outputs.map normalizeDocName).filter (· ≠ ""))

/-- `withRequired` after the push loop (src/apps/worker/src/index.ts:157-162). -/
def buildOutputsWithRequired (outputs : List String) : List String :=
  addRequiredOutputs (buildOutputsNormalized outputs)

/-- `withRequired` after the `hasMain` check and possible unshift of the
default main deliverable (src/apps/worker/src/index.ts:167-170). -/
def buildOutputsWithMain (outputs : List String) : List String :=
  if (buildOutputsWithRequired outputs).any
    (fun output => !(RESERVED_LOWER.contains (lowerStr output))) then
    buildOutputsWithRequired outputs
  else DEFAULT_MAIN_OUTPUT :: buildOutputsWithRequired outputs

def buildOutputs (outputs : List String) : List String :=
  uniqueByLowercase (buildOutputsWithMain outputs)

/-! ## buildFallbackPlan (src/apps/worker/src/index.ts:188-230)

The agent and step arrays are constants in the source (built from literals
and `.slice(0, MAX_AGENTS)` / `.slice(0, MAX_STEPS)`), hoisted here to
top-level definitions. -/

def fallbackAgents : List PlanAgent :=
  ([⟨"Researcher", "Researcher"⟩, ⟨"Writer", "Writer"⟩,
    ⟨"Critic", "Critic"⟩, ⟨"Organizer", "Organizer"⟩] : List PlanAgent).take
    MAX_AGENTS

/-- JS `fallbackAgents[i]?.name ?? dflt`. -/
def fallbackAgentName (i : Nat) (dflt : String) : String :=
  ((fallbackAgents.get? i).map PlanAgent.name).getD dflt

def fallbackSteps : List PlanStep :=
  ([{ id := "step-1", title := "Review workspace context",
      description :=
        "Scan the workspace documents for relevant facts and context.",
      agent := fallbackAgentName 0 "Researcher" },
    { id := "step-2", title := "Draft outline and key points",
      description :=
        "Outline the main deliverable and capture key points to address the prompt.",
      agent := fallbackAgentName 1 "Writer" },
    { id := "step-3", title := "Critique and refine",
      description :=
        "Surface risks, gaps, and questions to improve the final outputs.",
      agent := fallbackAgentName 2 "Critic" },
    { id := "step-4", title := "Assemble artifacts",
      description :=
        "Compile the deliverable, next actions, open questions, and sources.",
      agent := fallbackAgentName 3 "Organizer" }] : List PlanStep).take
    MAX_STEPS

def buildFallbackPlan (prompt : String) (outputs : List String) : RunPlan :=
  { interpretedGoal := takeChars 120 prompt
    steps := fallbackSteps
    agents := fallbackAgents
    outputs := buildOutputs outputs
    questions := [] }

/-! ## normalizePlan (src/apps/worker/src/index.ts:232-269) -/

/-- JS `AGENT_ARCHETYPES[index % 4]`. -/
def archetypeAt (index : Nat) : String :=
  AGENT_ARCHETYPES.getD (index % 4) "Researcher"

/-- The indexed `.map((name, index) => ...)` over the deduplicated agent
names (src/apps/worker/src/index.ts:233-241).  The JS guard
`role && AGENT_ARCHETYPES.includes(role)` collapses to the `includes`
test because the archetype names are non-empty. -/
def normalizeAgentsGo (original : List PlanAgent) :
    Nat → List String → List PlanAgent
  | _, [] => []
  | index, name :: rest =>
    let found := original.find? (fun a => a.name == name)
    let role :=
      match found with
      | some a =>
        if AGENT_ARCHETYPES.contains a.role then a.role else archetypeAt index
      | none => archetypeAt index
    ⟨name, role⟩ :: normalizeAgentsGo original (index + 1) rest

def defaultWriterAgent : PlanAgent := ⟨"Writer", "Writer"⟩

/-- The indexed `.map((step, index) => ...)` over the clamped steps
(src/apps/worker/src/index.ts:248-256).  `step.description || ""` is the
identity on strings and is kept as such. -/
def normalizeStepsGo (trimmedAgents : List PlanAgent) :
    Nat → List PlanStep → List PlanStep
  | _, [] => []
  | index, step :: rest =>
    let agentName :=
      (trimmedAgents.find? (fun a => a.name == step.agent)).map PlanAgent.name
    { id := if step.id = "" then "step-" ++ toString (index + 1) else step.id
      title :=
        if step.title = "" then "Step " ++ toString (index + 1) else step.title
      description := step.description
      agent := agentName.getD
        ((trimmedAgents.getD (index % trimmedAgents.length)
          defaultWriterAgent).name)
    } :: normalizeStepsGo trimmedAgents (index + 1) rest

/-- The deduplicated, role-repaired agent list
(src/apps/worker/src/index.ts:233-241). -/
def normalizePlanAgents (plan : RunPlan) : List PlanAgent :=
  normalizeAgentsGo plan.agents 0
    (uniqueByLowercase ((plan.agents.map PlanAgent.name).filter (· ≠ "")))

/-- `trimmedAgents`: clamp to `MAX_AGENTS`, then insert the default Writer
when empty (src/apps/worker/src/index.ts:243-246). -/
def normalizePlanTrimmedAgents (plan : RunPlan) : List PlanAgent :=
  if ((normalizePlanAgents plan).take MAX_AGENTS).isEmpty then
    [defaultWriterAgent]
  else (normalizePlanAgents plan).take MAX_AGENTS

/-- The clamped, repaired step list (src/apps/worker/src/index.ts:248-256). -/
def normalizePlanSteps (plan : RunPlan) : List PlanStep :=
  normalizeStepsGo (normalizePlanTrimmedAgents plan) 0
    (plan.steps.take MAX_STEPS)

def normalizePlan (plan : RunPlan) (prompt : String) : RunPlan :=
  if (normalizePlanSteps plan).isEmpty then
    buildFallbackPlan prompt plan.outputs
  else
    { interpretedGoal :=
        if plan.interpretedGoal = "" then takeChars 120 prompt
        else plan.interpretedGoal
      steps := normalizePlanSteps plan
      agents := normalizePlanTrimmedAgents plan
      outputs := buildOutputs plan.outputs
      questions := (plan.questions.take 3).filter (· ≠ "") }

/-! ## buildFallbackArtifacts (src/apps/worker/src/index.ts:332-379)

`clarifications` is `string | undefined` in the source and is modelled as
`Option String`; JS truthiness of a string is the non-emptiness test. -/

/-- JS `output.replace(/\.md$/i, "")`. -/
def stripMdSuffix (output : String) : String :=
  if endsWithStr (lowerStr output) ".md" then
    String.mk (output.toList.take (output.toList.length - 3))
  else output

def buildFallbackArtifacts (plan : RunPlan) (stepOutputs : List StepResult)
    (sources : List String) (clarifications : Option String) :
    List ArtifactSpec :=
  let notes := joinWith "\n\n"
    (stepOutputs.map (fun step => "## " ++ step.title ++ "\n" ++ step.output))
  let sourcesContent :=
    if sources.isEmpty then "- None"
    else joinWith "\n" (sources.map (fun source => "- " ++ source))
  plan.outputs.map (fun output =>
    if lowerStr output == "sources.md" then
      ⟨output, "# Sources\n\n" ++ sourcesContent⟩
    else if lowerStr output == "next actions.md" then
      ⟨output,
        "# Next Actions\n\n- Draft next steps based on the brief.\n- Validate open questions with stakeholders."⟩
    else if lowerStr output == "open questions.md" then
      let questions :=
        if plan.questions.isEmpty then "- None noted."
        else joinWith "\n" (plan.questions.map (fun question => "- " ++ question))
      ⟨output, "# Open Questions\n\n" ++ questions⟩
    else if lowerStr output == "outline.md" then
      ⟨output, "# Outline\n\n" ++ notes⟩
    else if lowerStr output == "critique.md" then
      ⟨output,
        "# Critique\n\n- Review the brief for gaps or assumptions.\n- Confirm alignment with the prompt."⟩
    else
      ⟨output, joinWith "\n"
        ["# " ++ stripMdSuffix output,
         if plan.interpretedGoal ≠ "" then
           "\n**Goal:** " ++ plan.interpretedGoal
         else "",
         match clarifications with
         | some c => if c ≠ "" then "\n**Clarifications:** " ++ c else ""
         | none => "",
         "\n## Notes",
         if notes = "" then "No notes available." else notes]⟩)

/-! ## Artifact reconciliation (src/apps/worker/src/index.ts:560-584) -/

/-- `rawArtifacts`: the engine payload when it parsed to a non-empty
artifact list, else the fallback list (src/apps/worker/src/index.ts:566-568). -/
def selectRawArtifacts (payload : Option (List ArtifactSpec))
    (fallbackArtifacts : List ArtifactSpec) : List ArtifactSpec :=
  match payload with
  | some arts => if arts.isEmpty then fallbackArtifacts else arts
  | none => fallbackArtifacts

/-- `finalArtifacts` (src/apps/worker/src/index.ts:570-584): for every
planned output, a case-insensitive match from `rawArtifacts` first, else
from `fallbackArtifacts`, else an empty-content artifact. -/
def reconcileFinalArtifacts (plannedOutputs : List String)
    (rawArtifacts fallbackArtifacts : List ArtifactSpec) : List ArtifactSpec :=
  plannedOutputs.map (fun output =>
    match rawArtifacts.find? (fun a => lowerStr a.path == lowerStr output) with
    | some m => m
    | none =>
      (fallbackArtifacts.find?
        (fun a => lowerStr a.path == lowerStr output)).getD ⟨output, ""⟩)

/-! ## mainArtifact selection (src/apps/worker/src/index.ts:611-618) -/

def selectMainArtifact (relativePaths : List String) : String :=
  match relativePaths.find?
    (fun p => !(RESERVED_LOWER.contains (lowerStr p))) with
  | some p => p
  | none =>
    match relativePaths with
    | [] => DEFAULT_MAIN_OUTPUT
    | p :: _ => p

/-! ## ensureDocsPath (src/apps/worker/src/index.ts:114-127)

The two filesystem-independent throw conditions are modelled exactly: an
empty or `..`-containing relative path, and a resolved path whose
`path.extname` is not `.md`.  For the relative names the engine feeds in
(never absolute, never containing `..` once past the first check),
`path.resolve(docsRoot, rel)` stays under `docsRoot` and its basename is
the final `/`-segment of `rel`, so the escape check never fires and
`path.extname(resolved)` equals `jsExtname rel` below. -/

/-- Node `path.extname`, restricted to the final `/`-segment: the suffix
from the last dot of the basename, empty when there is no dot or when the
only dot is the leading character of the basename. -/
def jsExtname (p : String) : String :=
  let base := (p.toList.reverse.takeWhile (· ≠ '/')).reverse
  let afterDot := base.reverse.takeWhile (· ≠ '.')
  if afterDot.length = base.length then ""
  else
    let dotIdx := base.length - afterDot.length - 1
    if dotIdx = 0 then "" else String.mk ('.' :: afterDot.reverse)

/-- `some errorMessage` when `ensureDocsPath` would throw on this relative
path, `none` when it passes. -/
def ensureDocsPathCheck (relativePath : String) : Option String :=
  if relativePath = "" ∨ containsSubstr relativePath ".." = true then
    some "Invalid document path."
  else if jsExtname relativePath ≠ ".md" then
    some "Only markdown files are allowed."
  else none

/-! ## Lenient JSON handling (src/apps/worker/src/index.ts:175-186)

`JSON.parse` is a platform primitive, not repository code; it enters the
model as the collaborator parameter `jp`.  Every call site hands it a
string sliced from the first brace to the last brace, and a successful
`JSON.parse` of such a string is always a JS object, so `jp` returns the
object's key/value fields (`none` for a parse failure).  Duplicate keys
follow JS semantics: the last occurrence wins. -/

inductive JsonVal where
  | str (s : String)
  | num (rendering : String)
  | bool (b : Bool)
  | null
  | arr (xs : List JsonVal)
  | obj (fields : List (String × JsonVal))

mutual

/-- JS `String(v)` on a parsed JSON value.  A number is carried together
with its decimal rendering, which is what `String` produces. -/
def jsToString : JsonVal → String
  | .str s => s
  | .num s => s
  | .bool true => "true"
  | .bool false => "false"
  | .null => "null"
  | .obj _ => "[object Object]"
  | .arr xs => joinWith "," (jsToStringList xs)

/-- JS array elements render as empty strings when null inside a join. -/
def jsToStringList : List JsonVal → List String
  | [] => []
  | .null :: rest => "" :: jsToStringList rest
  | v :: rest => jsToString v :: jsToStringList rest

end

/-- JS object field access; for duplicate keys the last occurrence wins. -/
def getJsField (fields : List (String × JsonVal)) (key : String) :
    Option JsonVal :=
  (fields.reverse.find? (fun kv => kv.fst == key)).map Prod.snd

/-- JS `String(v ?? dflt)` for a field value that may be absent
(undefined) or null. -/
def jsValStr (v : Option JsonVal) (dflt : String) : String :=
  match v with
  | none => dflt
  | some .null => dflt
  | some v => jsToString v

/-- JS `String(x.field ?? dflt)` where `x` is an arbitrary parsed value:
field access on a non-object yields undefined. -/
def jsFieldStr (x : JsonVal) (key dflt : String) : String :=
  match x with
  | .obj fields => jsValStr (getJsField fields key) dflt
  | _ => dflt

/-- The left-brace and right-brace characters, written by code point. -/
def leftBraceChar : Char := Char.ofNat 123
def rightBraceChar : Char := Char.ofNat 125

/-- `parseJson` (src/apps/worker/src/index.ts:175-186): locate the first
left brace and the last right brace, and hand the inclusive slice to
`JSON.parse` (the collaborator `jp`). -/
def parseJsonM (jp : String → Option (List (String × JsonVal)))
    (value : String) : Option (List (String × JsonVal)) :=
  let chars := value.toList
  match List.findIdx? (· == leftBraceChar) chars,
    List.findIdx? (· == rightBraceChar) chars.reverse with
  | some start, some revEnd =>
    let stop := chars.length - 1 - revEnd
    if stop ≤ start then none
    else jp (String.mk ((chars.drop start).take (stop + 1 - start)))
  | _, _ => none

/-! ## Prompt Engine outcomes -/

/-- One Prompt Engine (`unstable_v2_prompt`) outcome: `ok` models
`subtype === "success"`, `text` models `result.result ?? ""`, and
`errMsgs` models the optional `errors` array. -/
structure EngineReply where
  ok : Bool
  text : String
  errMsgs : Option (List String)

/-! ## createPlan (src/apps/worker/src/index.ts:381-441)

Only the part after the Prompt Engine call is repository logic that the
claims address; the workspace read and prompt assembly feed the engine
call and do not affect the returned plan's shape. -/

/-- The indexed coercion of `parsed.steps`
(src/apps/worker/src/index.ts:418-425). -/
def coerceStepsGo : Nat → List JsonVal → List PlanStep
  | _, [] => []
  | index, x :: rest =>
    { id := "step-" ++ toString (index + 1)
      title := jsFieldStr x "title" ""
      description := jsFieldStr x "description" ""
      agent := jsFieldStr x "agent" "" } :: coerceStepsGo (index + 1) rest

/-- Field-by-field coercion of the parsed plan object
(src/apps/worker/src/index.ts:416-438). -/
def coerceRunPlan (fields : List (String × JsonVal)) : RunPlan :=
  { interpretedGoal := jsValStr (getJsField fields "interpretedGoal") ""
    steps :=
      match getJsField fields "steps" with
      | some (.arr xs) => coerceStepsGo 0 xs
      | _ => []
    agents :=
      match getJsField fields "agents" with
      | some (.arr xs) =>
        xs.map (fun x => PlanAgent.mk (jsFieldStr x "name" "")
          (jsFieldStr x "role" "Writer"))
      | _ => []
    outputs :=
      match getJsField fields "outputs" with
      | some (.arr xs) => xs.map (fun x => jsValStr (some x) "")
      | _ => []
    questions :=
      match getJsField fields "questions" with
      | some (.arr xs) => (xs.map (fun x => jsValStr (some x) "")).filter (· ≠ "")
      | _ => [] }

/-- `createPlan` after the engine call
(src/apps/worker/src/index.ts:407-441). -/
def createPlanModel (jp : String → Option (List (String × JsonVal)))
    (reply : EngineReply) (prompt : String) : RunPlan :=
  if reply.ok = false then buildFallbackPlan prompt []
  else
    match parseJsonM jp reply.text with
    | none => buildFallbackPlan prompt []
    | some fields => normalizePlan (coerceRunPlan fields) prompt

/-! ## runAgent (src/apps/worker/src/index.ts:443-628)

The run is modelled as a deterministic trace over three collaborator
parameters: `jp` (JSON.parse), `engine : Nat → EngineReply` (the reply to
the n-th Prompt Engine call, 0-based), and `cancel : Nat → Bool` (the
value of `shouldCancel()` at its n-th evaluation, 0-based).  Each
`consumeTurn` that passes the budget check is immediately followed by
exactly one engine call, so `turnCount` equals the number of calls made;
the dead increment JS performs on the throwing path is not recorded. -/

inductive RunError where
  | cancelled
  | turnBudgetExceeded
  | stepFailed (msg : String)
  | docPathError (msg : String)
deriving DecidableEq

structure RunState where
  turnCount : Nat
  polls : Nat
  stepResults : List StepResult
deriving DecidableEq

/-- `result.errors?.join("; ") ?? "Agent step failed."`
(src/apps/worker/src/index.ts:510). -/
def stepFailureMsg (errMsgs : Option (List String)) : String :=
  match errMsgs with
  | some msgs => joinWith "; " msgs
  | none => "Agent step failed."

/-- The step loop (src/apps/worker/src/index.ts:487-523): poll
cancellation, consume a turn, call the engine, record a `StepResult`. -/
def execSteps (maxTurns : Nat) (engine : Nat → EngineReply)
    (cancel : Nat → Bool) :
    List PlanStep → RunState → RunState × Option RunError
  | [], st => (st, none)
  | step :: rest, st =>
    if cancel st.polls then
      ({ st with polls := st.polls + 1 }, some .cancelled)
    else if maxTurns < st.turnCount + 1 then
      ({ st with polls := st.polls + 1 }, some .turnBudgetExceeded)
    else if (engine st.turnCount).ok = false then
      ({ st with polls := st.polls + 1, turnCount := st.turnCount + 1 },
        some (.stepFailed (stepFailureMsg (engine st.turnCount).errMsgs)))
    else
      execSteps maxTurns engine cancel rest
        { turnCount := st.turnCount + 1
          polls := st.polls + 1
          stepResults := st.stepResults ++
            [⟨step.id, step.title, step.agent, (engine st.turnCount).text⟩] }

/-- The artifact payload extraction
(src/apps/worker/src/index.ts:544-558): parse leniently, require an
`artifacts` array, coerce each entry, drop entries with an empty path. -/
def extractArtifactsPayload (jp : String → Option (List (String × JsonVal)))
    (text : String) : Option (List ArtifactSpec) :=
  match parseJsonM jp text with
  | none => none
  | some fields =>
    match getJsField fields "artifacts" with
    | some (.arr xs) =>
      some ((xs.map (fun x =>
        ArtifactSpec.mk (jsFieldStr x "path" "") (jsFieldStr x "content" ""))
        ).filter (fun a => a.path ≠ ""))
    | _ => none

structure WriteState where
  polls : Nat
  written : List ArtifactSpec
deriving DecidableEq

/-- The artifact write loop (src/apps/worker/src/index.ts:586-609): poll
cancellation before every artifact, re-normalize the path, silently skip
names that normalize to empty, run the docs-path guard, then write. -/
def writeArtifacts (cancel : Nat → Bool) :
    List ArtifactSpec → WriteState → WriteState × Option RunError
  | [], ws => (ws, none)
  | artifact :: rest, ws =>
    if cancel ws.polls then
      ({ ws with polls := ws.polls + 1 }, some .cancelled)
    else if normalizeDocName artifact.path = "" then
      writeArtifacts cancel rest { ws with polls := ws.polls + 1 }
    else
      match ensureDocsPathCheck (normalizeDocName artifact.path) with
      | some msg => ({ ws with polls := ws.polls + 1 }, some (.docPathError msg))
      | none =>
        writeArtifacts cancel rest
          { polls := ws.polls + 1
            written := ws.written ++
              [⟨normalizeDocName artifact.path, artifact.content⟩] }

/-- Everything observable about one modelled run: the number of engine
calls made, the number of cancellation-predicate evaluations, the
recorded step results, the artifacts written, the terminal error if any,
and the selected main artifact on success. -/
structure RunTrace where
  calls : Nat
  polls : Nat
  steps : List StepResult
  written : List ArtifactSpec
  error : Option RunError
  mainArtifact : Option String
deriving DecidableEq

/-- The write loop followed by `mainArtifact` selection and result
assembly (src/apps/worker/src/index.ts:586-627). -/
def runWritePhase (cancel : Nat → Bool) (finalArtifacts : List ArtifactSpec)
    (st : RunState) : RunTrace :=
  match writeArtifacts cancel finalArtifacts ⟨st.polls, []⟩ with
  | (ws, some e) =>
    ⟨st.turnCount, ws.polls, st.stepResults, ws.written, some e, none⟩
  | (ws, none) =>
    ⟨st.turnCount, ws.polls, st.stepResults, ws.written, none,
      some (selectMainArtifact (ws.written.map ArtifactSpec.path))⟩

/-- The `finalArtifacts` list a run reconciles, given the state after the
step loop (src/apps/worker/src/index.ts:536-584): the artifact-phase
engine call is the `st.turnCount`-th call, its payload is extracted only
on a success reply, and reconciliation runs against the fallback
artifacts built from the recorded step results. -/
def runFinalArtifacts (jp : String → Option (List (String × JsonVal)))
    (engine : Nat → EngineReply) (sources : List String)
    (clarifications : Option String) (normalizedPlan : RunPlan)
    (st : RunState) : List ArtifactSpec :=
  reconcileFinalArtifacts normalizedPlan.outputs
    (selectRawArtifacts
      (if (engine st.turnCount).ok then
        extractArtifactsPayload jp (engine st.turnCount).text
      else none)
      (buildFallbackArtifacts normalizedPlan st.stepResults sources
        clarifications))
    (buildFallbackArtifacts normalizedPlan st.stepResults sources
      clarifications)

/-- The artifact phase (src/apps/worker/src/index.ts:525-627): poll
cancellation, consume a turn for the artifact call, reconcile, write. -/
def runArtifactPhase (jp : String → Option (List (String × JsonVal)))
    (engine : Nat → EngineReply) (cancel : Nat → Bool) (maxTurns : Nat)
    (sources : List String) (clarifications : Option String)
    (normalizedPlan : RunPlan) (st : RunState) : RunTrace :=
  if cancel st.polls then
    ⟨st.turnCount, st.polls + 1, st.stepResults, [], some .cancelled, none⟩
  else if maxTurns < st.turnCount + 1 then
    ⟨st.turnCount, st.polls + 1, st.stepResults, [],
      some .turnBudgetExceeded, none⟩
  else
    runWritePhase cancel
      (runFinalArtifacts jp engine sources clarifications normalizedPlan st)
      { st with turnCount := st.turnCount + 1, polls := st.polls + 1 }

/-- The whole of `runAgent` after workspace loading
(src/apps/worker/src/index.ts:460-627): re-normalize the plan, run the
step loop over the steps from `startingStepIndex`, then the artifact
phase. -/
def runAgentModel (jp : String → Option (List (String × JsonVal)))
    (engine : Nat → EngineReply) (cancel : Nat → Bool) (maxTurns : Nat)
    (sources : List String) (clarifications : Option String)
    (plan : RunPlan) (prompt : String) (startingStepIndex : Nat) : RunTrace :=
  match execSteps maxTurns engine cancel
    ((normalizePlan plan prompt).steps.drop startingStepIndex) ⟨0, 0, []⟩ with
  | (st, some e) => ⟨st.turnCount, st.polls, st.stepResults, [], some e, none⟩
  | (st, none) =>
    runArtifactPhase jp engine cancel maxTurns sources clarifications
      (normalizePlan plan prompt) st

/-! ## Concrete fixtures used in instance theorems -/

def planOneStep : RunPlan :=
  { interpretedGoal := "Goal"
    steps := [⟨"step-1", "First", "", "Writer"⟩]
    agents := [⟨"Writer", "Writer"⟩]
    outputs := ["Brief.md"]
    questions := [] }

def planTwoSteps : RunPlan :=
  { interpretedGoal := "Goal"
    steps := [⟨"step-1", "First", "", "Writer"⟩,
              ⟨"step-2", "Second", "", "Writer"⟩]
    agents := [⟨"Writer", "Writer"⟩]
    outputs := ["Brief.md"]
    questions := [] }

def planThreeSteps : RunPlan :=
  { interpretedGoal := "Goal"
    steps := [⟨"step-1", "First", "", "Writer"⟩,
              ⟨"step-2", "Second", "", "Writer"⟩,
              ⟨"step-3", "Third", "", "Writer"⟩]
    agents := [⟨"Writer", "Writer"⟩]
    outputs := ["Brief.md"]
    questions := [] }

/-- A candidate plan whose second output name normalizes to the degenerate
name `.md` and whose first normalizes to a name containing `..`. -/
def planBadOutputs : RunPlan :=
  { interpretedGoal := ""
    steps := [⟨"step-1", "First", "", "Writer"⟩]
    agents := [⟨"Writer", "Writer"⟩]
    outputs := ["a.", "/"]
    questions := [] }

/-- A candidate plan whose output name normalizes to a name with a leading
space, which a second normalization trims away. -/
def planSpacedOutput : RunPlan :=
  { interpretedGoal := ""
    steps := [⟨"step-1", "First", "", "Writer"⟩]
    agents := [⟨"Writer", "Writer"⟩]
    outputs := ["/ a.md"]
    questions := [] }

def engineOk : Nat → EngineReply := fun _ => ⟨true, "notes", none⟩
def cancelNever : Nat → Bool := fun _ => false
def cancelAlways : Nat → Bool := fun _ => true
def cancelFromOne : Nat → Bool := fun n => decide (1 ≤ n)
def cancelFromTwo : Nat → Bool := fun n => decide (2 ≤ n)
def jpNone : String → Option (List (String × JsonVal)) := fun _ => none
def jpObjEmpty : String → Option (List (String × JsonVal)) := fun _ => some []

/-- The two-character string consisting of a left and a right brace. -/
def braceTextPair : String := String.mk [leftBraceChar, rightBraceChar]

def c2Plan : RunPlan :=
  { interpretedGoal := "Goal"
    steps := [⟨"step-1", "First", "", "Writer"⟩]
    agents := [⟨"Writer", "Writer"⟩]
    outputs := ["Brief.md", "Next Actions.md", "Open Questions.md",
                "Sources.md"]
    questions := [] }

def c2EngineArtifacts : List ArtifactSpec :=
  [⟨"Brief.md", "Engine brief"⟩, ⟨"Sources.md", "Engine sources"⟩]

def c2Fallback : List ArtifactSpec := buildFallbackArtifacts c2Plan [] [] none

/-- The invariants `normalizePlan` guarantees for its output, relative to
the prompt it was normalized against.  Used to prove the normalizer is a
projection on the plans satisfying them. -/
structure PlanInv (prompt : String) (q : RunPlan) : Prop where
  agentsNe : q.agents ≠ []
  agentsLen : q.agents.length ≤ MAX_AGENTS
  agentNamesNe : ∀ a ∈ q.agents, a.name ≠ ""
  agentNamesPw : q.agents.Pairwise
    (fun a b => lowerStr a.name ≠ lowerStr b.name)
  agentRoles : ∀ a ∈ q.agents, AGENT_ARCHETYPES.contains a.role = true
  stepsNe : q.steps ≠ []
  stepsLen : q.steps.length ≤ MAX_STEPS
  stepIds : ∀ s ∈ q.steps, s.id ≠ ""
  stepTitles : ∀ s ∈ q.steps, s.title ≠ ""
  stepAgents : ∀ s ∈ q.steps, ∃ a ∈ q.agents, a.name = s.agent
  outputsB : buildOutputs q.outputs = q.outputs
  questionsLen : q.questions.length ≤ 3
  questionsNe : ∀ x ∈ q.questions, x ≠ ""
  goalDflt : q.interpretedGoal = "" → takeChars 120 prompt = ""

/-! ## Lemmas: uniqueByLowercase -/

theorem contains_eq_true_iff_mem {l : List String} {a : String} :
    l.contains a = true ↔ a ∈ l := by
  simp [List.contains_iff_exists_mem_beq]

theorem uniqueByLowercaseGo_mem {v : String} :
    ∀ (l seen : List String), v ∈ uniqueByLowercaseGo l seen →
      v ∈ l ∧ v ≠ "" ∧ lowerStr v ∉ seen := by
  intro l
  induction l with
  | nil => intro seen h; cases h
  | cons a rest ih =>
    intro seen h
    by_cases ha : a = ""
    · rw [uniqueByLowercaseGo, if_pos ha] at h
      obtain ⟨h1, h2, h3⟩ := ih _ h
      exact ⟨.tail _ h1, h2, h3⟩
    · by_cases hs : seen.contains (lowerStr a)
      · rw [uniqueByLowercaseGo, if_neg ha, if_pos hs] at h
        obtain ⟨h1, h2, h3⟩ := ih _ h
        exact ⟨.tail _ h1, h2, h3⟩
      · rw [uniqueByLowercaseGo, if_neg ha, if_neg hs] at h
        rcases List.mem_cons.mp h with rfl | h
        · exact ⟨.head _, ha, fun hm => hs (contains_eq_true_iff_mem.mpr hm)⟩
        · obtain ⟨h1, h2, h3⟩ := ih _ h
          exact ⟨.tail _ h1, h2, fun hm => h3 (List.mem_cons_of_mem _ hm)⟩

theorem uniqueByLowercaseGo_pairwise :
    ∀ (l seen : List String),
      (uniqueByLowercaseGo l seen).Pairwise
        (fun a b => lowerStr a ≠ lowerStr b) := by
  intro l
  induction l with
  | nil => intro seen; exact List.Pairwise.nil
  | cons a rest ih =>
    intro seen
    by_cases ha : a = ""
    · rw [uniqueByLowercaseGo, if_pos ha]; exact ih _
    · by_cases hs : seen.contains (lowerStr a)
      · rw [uniqueByLowercaseGo, if_neg ha, if_pos hs]; exact ih _
      · rw [uniqueByLowercaseGo, if_neg ha, if_neg hs]
        refine List.Pairwise.cons ?_ (ih _)
        intro b hb he
        obtain ⟨_, _, h3⟩ := uniqueByLowercaseGo_mem _ _ hb
        exact h3 (by rw [← he]; exact List.mem_cons_self _ _)

theorem uniqueByLowercaseGo_covers {v : String} :
    ∀ (l seen : List String), v ∈ l → v ≠ "" →
      lowerStr v ∈ seen ∨
        ∃ w ∈ uniqueByLowercaseGo l seen, lowerStr w = lowerStr v := by
  intro l
  induction l with
  | nil => intro seen h; cases h
  | cons a rest ih =>
    intro seen hv hne
    by_cases ha : a = ""
    · rw [uniqueByLowercaseGo, if_pos ha]
      rcases List.mem_cons.mp hv with rfl | hv
      · exact absurd ha hne
      · exact ih _ hv hne
    · by_cases hs : seen.contains (lowerStr a)
      · rw [uniqueByLowercaseGo, if_neg ha, if_pos hs]
        rcases List.mem_cons.mp hv with rfl | hv
        · exact Or.inl (contains_eq_true_iff_mem.mp hs)
        · exact ih _ hv hne
      · rw [uniqueByLowercaseGo, if_neg ha, if_neg hs]
        rcases List.mem_cons.mp hv with rfl | hv
        · exact Or.inr ⟨v, List.mem_cons_self _ _, rfl⟩
        · rcases ih (lowerStr a :: seen) hv hne with h | ⟨w, hw, he⟩
          · rcases List.mem_cons.mp h with he | h
            · exact Or.inr ⟨a, List.mem_cons_self _ _, he.symm⟩
            · exact Or.inl h
          · exact Or.inr ⟨w, List.mem_cons_of_mem _ hw, he⟩

theorem uniqueByLowercaseGo_fixed :
    ∀ (l seen : List String), (∀ v ∈ l, v ≠ "") →
      l.Pairwise (fun a b => lowerStr a ≠ lowerStr b) →
      (∀ v ∈ l, lowerStr v ∉ seen) →
      uniqueByLowercaseGo l seen = l := by
  intro l
  induction l with
  | nil => intro seen _ _ _; rfl
  | cons a rest ih =>
    intro seen hne hpw hseen
    have ha : a ≠ "" := hne a (.head _)
    have hs : ¬ seen.contains (lowerStr a) = true := fun h =>
      hseen a (.head _) (contains_eq_true_iff_mem.mp h)
    rw [uniqueByLowercaseGo, if_neg ha, if_neg hs]
    congr 1
    refine ih _ (fun v hv => hne v (.tail _ hv)) hpw.of_cons ?_
    intro v hv hmem
    rcases List.mem_cons.mp hmem with he | hmem'
    · exact (List.pairwise_cons.mp hpw).1 v hv he.symm
    · exact hseen v (.tail _ hv) hmem'

/-! ## Lemmas: the required-outputs push loop -/

theorem pushRequired_subset {x : String} {acc : List String} (r : String)
    (h : x ∈ acc) : x ∈ pushRequired acc r := by
  unfold pushRequired
  split
  · exact h
  · exact List.mem_append_left _ h

theorem pushRequired_mem {x : String} {acc : List String} {r : String}
    (h : x ∈ pushRequired acc r) : x ∈ acc ∨ x = r := by
  unfold pushRequired at h
  split at h
  · exact Or.inl h
  · rcases List.mem_append.mp h with h | h
    · exact Or.inl h
    · exact Or.inr (List.mem_singleton.mp h)

theorem pushRequired_covers (acc : List String) (r : String) :
    ∃ o ∈ pushRequired acc r, lowerStr o = lowerStr r := by
  unfold pushRequired
  split
  · next hany =>
    obtain ⟨o, ho, hbe⟩ := List.any_eq_true.mp hany
    exact ⟨o, ho, eq_of_beq hbe⟩
  · exact ⟨r, List.mem_append_right _ (List.mem_singleton_self _), rfl⟩

theorem pushRequired_stable {acc : List String} {r : String}
    (h : ∃ o ∈ acc, lowerStr o = lowerStr r) : pushRequired acc r = acc := by
  obtain ⟨o, ho, he⟩ := h
  unfold pushRequired
  rw [if_pos]
  exact List.any_eq_true.mpr ⟨o, ho, by simp [he]⟩

theorem foldl_pushRequired_subset {x : String} :
    ∀ (rs acc : List String), x ∈ acc → x ∈ rs.foldl pushRequired acc
  | [], _, h => h
  | r :: rest, acc, h =>
    foldl_pushRequired_subset rest (pushRequired acc r)
      (pushRequired_subset r h)

theorem foldl_pushRequired_mem {x : String} :
    ∀ (rs acc : List String), x ∈ rs.foldl pushRequired acc →
      x ∈ acc ∨ x ∈ rs := by
  intro rs
  induction rs with
  | nil => intro acc h; exact Or.inl h
  | cons r rest ih =>
    intro acc h
    rcases ih _ h with h | h
    · rcases pushRequired_mem h with h | rfl
      · exact Or.inl h
      · exact Or.inr (.head _)
    · exact Or.inr (.tail _ h)

theorem foldl_pushRequired_covers {r : String} :
    ∀ (rs acc : List String), r ∈ rs →
      ∃ o ∈ rs.foldl pushRequired acc, lowerStr o = lowerStr r := by
  intro rs
  induction rs with
  | nil => intro acc h; cases h
  | cons a rest ih =>
    intro acc hr
    rcases List.mem_cons.mp hr with rfl | hr
    · obtain ⟨o, ho, he⟩ := pushRequired_covers acc r
      exact ⟨o, foldl_pushRequired_subset rest _ ho, he⟩
    · exact ih _ hr

theorem foldl_pushRequired_stable :
    ∀ (rs acc : List String),
      (∀ r ∈ rs, ∃ o ∈ acc, lowerStr o = lowerStr r) →
      rs.foldl pushRequired acc = acc := by
  intro rs
  induction rs with
  | nil => intro acc _; rfl
  | cons a rest ih =>
    intro acc h
    show rest.foldl pushRequired (pushRequired acc a) = acc
    rw [pushRequired_stable (h a (.head _))]
    exact ih _ (fun r hr => h r (.tail _ hr))

/-! ## Lemmas: normalizeDocName and buildOutputs -/

theorem listStartsWith_self_append :
    ∀ (p rest : List Char), listStartsWith (p ++ rest) p = true := by
  intro p
  induction p with
  | nil =>
    intro rest
    rw [List.nil_append]
    cases rest <;> rfl
  | cons c p ih => intro rest; simp [listStartsWith, ih]

theorem endsWithStr_append_md (s : String) :
    endsWithStr (s ++ ".md") ".md" = true := by
  unfold endsWithStr
  have h : (s ++ ".md").toList = s.toList ++ ".md".toList := rfl
  rw [h, List.reverse_append]
  exact listStartsWith_self_append _ _

theorem normalizeDocName_endsWith (value : String) :
    normalizeDocName value = "" ∨
      endsWithStr (normalizeDocName value) ".md" = true := by
  unfold normalizeDocName
  split
  · exact Or.inl rfl
  · split
    · exact Or.inl rfl
    · split
      · next h => exact Or.inr h
      · exact Or.inr (endsWithStr_append_md _)

theorem required_output_facts :
    ∀ r ∈ REQUIRED_OUTPUTS,
      r ≠ "" ∧ normalizeDocName r = r ∧ endsWithStr r ".md" = true := by
  decide

theorem default_main_facts :
    DEFAULT_MAIN_OUTPUT ≠ "" ∧
      normalizeDocName DEFAULT_MAIN_OUTPUT = DEFAULT_MAIN_OUTPUT ∧
      endsWithStr DEFAULT_MAIN_OUTPUT ".md" = true ∧
      RESERVED_LOWER.contains (lowerStr DEFAULT_MAIN_OUTPUT) = false := by
  decide

theorem mem_buildOutputsNormalized {o : String} {outs : List String}
    (h : o ∈ buildOutputsNormalized outs) :
    (∃ x ∈ outs, o = normalizeDocName x) ∧ o ≠ "" := by
  obtain ⟨h1, h2, _⟩ := uniqueByLowercaseGo_mem _ _ h
  obtain ⟨h3, _⟩ := List.mem_filter.mp h1
  obtain ⟨x, hx, he⟩ := List.mem_map.mp h3
  exact ⟨⟨x, hx, he.symm⟩, h2⟩

theorem mem_buildOutputsWithMain_ne {o : String} {outs : List String}
    (h : o ∈ buildOutputsWithMain outs) : o ≠ "" := by
  unfold buildOutputsWithMain at h
  have hwr : ∀ x ∈ buildOutputsWithRequired outs, x ≠ "" := by
    intro x hx
    rcases foldl_pushRequired_mem _ _ hx with hx | hx
    · exact (mem_buildOutputsNormalized hx).2
    · exact (required_output_facts x hx).1
  split at h
  · exact hwr o h
  · rcases List.mem_cons.mp h with rfl | h
    · exact default_main_facts.1
    · exact hwr o h

theorem buildOutputs_classify {o : String} {outs : List String}
    (h : o ∈ buildOutputs outs) :
    (∃ x ∈ outs, o = normalizeDocName x) ∨ o ∈ REQUIRED_OUTPUTS ∨
      o = DEFAULT_MAIN_OUTPUT := by
  have h1 : o ∈ buildOutputsWithMain outs :=
    (uniqueByLowercaseGo_mem _ _ h).1
  unfold buildOutputsWithMain at h1
  have hwr : o ∈ buildOutputsWithRequired outs →
      (∃ x ∈ outs, o = normalizeDocName x) ∨ o ∈ REQUIRED_OUTPUTS := by
    intro hx
    rcases foldl_pushRequired_mem _ _ hx with hx | hx
    · exact Or.inl (mem_buildOutputsNormalized hx).1
    · exact Or.inr hx
  split at h1
  · rcases hwr h1 with h2 | h2
    · exact Or.inl h2
    · exact Or.inr (Or.inl h2)
  · rcases List.mem_cons.mp h1 with rfl | h1
    · exact Or.inr (Or.inr rfl)
    · rcases hwr h1 with h2 | h2
      · exact Or.inl h2
      · exact Or.inr (Or.inl h2)

theorem buildOutputs_ne_empty {o : String} {outs : List String}
    (h : o ∈ buildOutputs outs) : o ≠ "" :=
  (uniqueByLowercaseGo_mem _ _ h).2.1

theorem buildOutputs_pairwise (outs : List String) :
    (buildOutputs outs).Pairwise (fun a b => lowerStr a ≠ lowerStr b) :=
  uniqueByLowercaseGo_pairwise _ _

theorem buildOutputs_required (outs : List String) :
    ∀ r ∈ REQUIRED_OUTPUTS,
      ∃ o ∈ buildOutputs outs, lowerStr o = lowerStr r := by
  intro r hr
  obtain ⟨o, ho, he⟩ :=
    foldl_pushRequired_covers REQUIRED_OUTPUTS (buildOutputsNormalized outs) hr
  have ho' : o ∈ buildOutputsWithMain outs := by
    unfold buildOutputsWithMain
    split
    · exact ho
    · exact .tail _ ho
  rcases uniqueByLowercaseGo_covers _ [] ho' (mem_buildOutputsWithMain_ne ho')
    with h | ⟨w, hw, hwe⟩
  · cases h
  · exact ⟨w, hw, hwe.trans he⟩

theorem buildOutputs_has_main (outs : List String) :
    ∃ o ∈ buildOutputs outs,
      RESERVED_LOWER.contains (lowerStr o) = false := by
  have hmain : ∃ o ∈ buildOutputsWithMain outs,
      RESERVED_LOWER.contains (lowerStr o) = false := by
    unfold buildOutputsWithMain
    split
    · next hany =>
      obtain ⟨o, ho, hb⟩ := List.any_eq_true.mp hany
      exact ⟨o, ho, by simpa using hb⟩
    · exact ⟨DEFAULT_MAIN_OUTPUT, .head _, default_main_facts.2.2.2⟩
  obtain ⟨o, ho, hb⟩ := hmain
  rcases uniqueByLowercaseGo_covers _ [] ho (mem_buildOutputsWithMain_ne ho)
    with h | ⟨w, hw, hwe⟩
  · cases h
  · exact ⟨w, hw, by rw [hwe]; exact hb⟩

theorem buildOutputs_endsWith {o : String} {outs : List String}
    (h : o ∈ buildOutputs outs) : endsWithStr o ".md" = true := by
  rcases buildOutputs_classify h with ⟨x, _, rfl⟩ | hr | rfl
  · rcases normalizeDocName_endsWith x with he | he
    · exact absurd he (buildOutputs_ne_empty h)
    · exact he
  · exact (required_output_facts o hr).2.2
  · exact default_main_facts.2.2.1

theorem buildOutputs_fix_of {outs : List String}
    (hfix : ∀ x ∈ outs,
      normalizeDocName (normalizeDocName x) = normalizeDocName x) :
    ∀ o ∈ buildOutputs outs, normalizeDocName o = o := by
  intro o ho
  rcases buildOutputs_classify ho with ⟨x, hx, rfl⟩ | hr | rfl
  · exact hfix x hx
  · exact (required_output_facts o hr).2.1
  · exact default_main_facts.2.1

theorem buildOutputs_fixed {outs : List String}
    (hfix : ∀ o ∈ buildOutputs outs, normalizeDocName o = o) :
    buildOutputs (buildOutputs outs) = buildOutputs outs := by
  have hnorm : buildOutputsNormalized (buildOutputs outs) =
      buildOutputs outs := by
    unfold buildOutputsNormalized
    rw [List.map_congr_left hfix, List.map_id',
      List.filter_eq_self.mpr (fun a ha => by
        simpa using buildOutputs_ne_empty ha)]
    exact uniqueByLowercaseGo_fixed _ []
      (fun v hv => buildOutputs_ne_empty hv)
      (buildOutputs_pairwise outs) (fun v _ h => by cases h)
  have hwr : buildOutputsWithRequired (buildOutputs outs) =
      buildOutputs outs := by
    unfold buildOutputsWithRequired addRequiredOutputs
    rw [hnorm]
    exact foldl_pushRequired_stable _ _ (buildOutputs_required outs)
  have hmain : buildOutputsWithMain (buildOutputs outs) =
      buildOutputs outs := by
    unfold buildOutputsWithMain
    rw [hwr, if_pos]
    obtain ⟨o, ho, hb⟩ := buildOutputs_has_main outs
    exact List.any_eq_true.mpr ⟨o, ho, by rw [hb]; rfl⟩
  show uniqueByLowercase (buildOutputsWithMain (buildOutputs outs)) =
    buildOutputs outs
  rw [hmain]
  exact uniqueByLowercaseGo_fixed _ []
    (fun v hv => buildOutputs_ne_empty hv)
    (buildOutputs_pairwise outs) (fun v _ h => by cases h)

/-! ## Lemmas: agent and step normalization -/

theorem str_append_ne_empty {s : String} (t : String) (h : s.data ≠ []) :
    s ++ t ≠ "" := by
  intro he
  exact h (List.append_eq_nil.mp (congrArg String.data he)).1

theorem archetypeAt_mem (i : Nat) :
    AGENT_ARCHETYPES.contains (archetypeAt i) = true := by
  unfold archetypeAt
  have h : i % 4 = 0 ∨ i % 4 = 1 ∨ i % 4 = 2 ∨ i % 4 = 3 := by omega
  rcases h with h | h | h | h <;> rw [h] <;> decide

theorem normalizeAgentsGo_names (original : List PlanAgent) :
    ∀ (i : Nat) (l : List String),
      (normalizeAgentsGo original i l).map PlanAgent.name = l := by
  intro i l
  induction l generalizing i with
  | nil => rfl
  | cons name rest ih => simp [normalizeAgentsGo, ih]

theorem normalizeAgentsGo_roles (original : List PlanAgent) :
    ∀ (i : Nat) (l : List String) (a : PlanAgent),
      a ∈ normalizeAgentsGo original i l →
      AGENT_ARCHETYPES.contains a.role = true := by
  intro i l
  induction l generalizing i with
  | nil => intro a h; cases h
  | cons name rest ih =>
    intro a h
    rw [normalizeAgentsGo] at h
    rcases List.mem_cons.mp h with rfl | h
    · show AGENT_ARCHETYPES.contains
        (match original.find? (fun x => x.name == name) with
          | some a =>
            if AGENT_ARCHETYPES.contains a.role then a.role
            else archetypeAt i
          | none => archetypeAt i) = true
      cases hf : original.find? (fun x => x.name == name) with
      | none => exact archetypeAt_mem i
      | some found =>
        show AGENT_ARCHETYPES.contains
          (if AGENT_ARCHETYPES.contains found.role then found.role
            else archetypeAt i) = true
        by_cases hc : AGENT_ARCHETYPES.contains found.role = true
        · rw [if_pos hc]; exact hc
        · rw [if_neg hc]; exact archetypeAt_mem i
    · exact ih (i + 1) a h

theorem find?_name_self {l : List PlanAgent}
    (hpw : l.Pairwise (fun a b => lowerStr a.name ≠ lowerStr b.name))
    {a : PlanAgent} (ha : a ∈ l) :
    l.find? (fun x => x.name == a.name) = some a := by
  induction l with
  | nil => cases ha
  | cons b rest ih =>
    rcases List.mem_cons.mp ha with rfl | ha'
    · simp [List.find?_cons]
    · have hne : (b.name == a.name) = false := by
        rw [beq_eq_false_iff_ne]
        intro he
        exact (List.pairwise_cons.mp hpw).1 a ha' (by rw [he])
      rw [List.find?_cons, hne]
      exact ih (List.pairwise_cons.mp hpw).2 ha'

theorem normalizeAgentsGo_fixed (original : List PlanAgent) :
    ∀ (i : Nat) (l : List PlanAgent),
      (∀ a ∈ l, original.find? (fun x => x.name == a.name) = some a) →
      (∀ a ∈ l, AGENT_ARCHETYPES.contains a.role = true) →
      normalizeAgentsGo original i (l.map PlanAgent.name) = l := by
  intro i l
  induction l generalizing i with
  | nil => intro _ _; rfl
  | cons a rest ih =>
    intro hfind hrole
    rw [List.map_cons, normalizeAgentsGo, hfind a (.head _)]
    have heta : (⟨a.name, a.role⟩ : PlanAgent) = a := rfl
    simp only [hrole a (.head _), if_true]
    rw [heta]
    congr 1
    exact ih (i + 1) (fun b hb => hfind b (.tail _ hb))
      (fun b hb => hrole b (.tail _ hb))

theorem find?_name_of_exists {tA : List PlanAgent} {nm : String}
    (h : ∃ a ∈ tA, a.name = nm) :
    ∃ a, tA.find? (fun x => x.name == nm) = some a ∧ a.name = nm := by
  rcases h with ⟨a, ha, rfl⟩
  cases hf : tA.find? (fun x => x.name == a.name) with
  | none =>
    exact absurd (beq_self_eq_true a.name) (List.find?_eq_none.mp hf a ha)
  | some b =>
    exact ⟨b, rfl, by simpa using List.find?_some hf⟩

theorem getD_mod_mem {l : List PlanAgent} (h : l ≠ []) (i : Nat) :
    l.getD (i % l.length) defaultWriterAgent ∈ l := by
  have hlt : i % l.length < l.length := Nat.mod_lt _ (List.length_pos.mpr h)
  rw [List.getD_eq_getElem?_getD, List.getElem?_eq_getElem hlt,
    Option.getD_some]
  exact List.getElem_mem hlt

theorem normalizeStepsGo_length (tA : List PlanAgent) :
    ∀ (i : Nat) (l : List PlanStep),
      (normalizeStepsGo tA i l).length = l.length := by
  intro i l
  induction l generalizing i with
  | nil => rfl
  | cons s rest ih => simp [normalizeStepsGo, ih]

theorem normalizeStepsGo_mem {tA : List PlanAgent} (htA : tA ≠ []) :
    ∀ (i : Nat) (l : List PlanStep) (s : PlanStep),
      s ∈ normalizeStepsGo tA i l →
      s.id ≠ "" ∧ s.title ≠ "" ∧ ∃ a ∈ tA, a.name = s.agent := by
  intro i l
  induction l generalizing i with
  | nil => intro s h; cases h
  | cons step rest ih =>
    intro s h
    rw [normalizeStepsGo] at h
    rcases List.mem_cons.mp h with rfl | h
    · refine ⟨?_, ?_, ?_⟩
      · show (if step.id = "" then "step-" ++ toString (i + 1) else step.id) ≠ ""
        split
        · exact str_append_ne_empty _ (by decide)
        · next hid => exact hid
      · show (if step.title = "" then "Step " ++ toString (i + 1)
          else step.title) ≠ ""
        split
        · exact str_append_ne_empty _ (by decide)
        · next ht => exact ht
      · show ∃ a ∈ tA, a.name =
          ((tA.find? (fun a => a.name == step.agent)).map PlanAgent.name).getD
            ((tA.getD (i % tA.length) defaultWriterAgent).name)
        cases hf : tA.find? (fun a => a.name == step.agent) with
        | some a =>
          exact ⟨a, List.mem_of_find?_eq_some hf, by simp⟩
        | none =>
          exact ⟨tA.getD (i % tA.length) defaultWriterAgent,
            getD_mod_mem htA i, by simp⟩
    · exact ih (i + 1) s h

theorem normalizeStepsGo_fixed (tA : List PlanAgent) :
    ∀ (i : Nat) (l : List PlanStep),
      (∀ s ∈ l, s.id ≠ "" ∧ s.title ≠ "" ∧
        ∃ a ∈ tA, a.name = s.agent) →
      normalizeStepsGo tA i l = l := by
  intro i l
  induction l generalizing i with
  | nil => intro _; rfl
  | cons step rest ih =>
    intro hinv
    obtain ⟨hid, htitle, hagent⟩ := hinv step (.head _)
    obtain ⟨a, hfa, hname⟩ := find?_name_of_exists hagent
    rw [normalizeStepsGo, hfa]
    have heta : (⟨step.id, step.title, step.description, step.agent⟩ :
        PlanStep) = step := rfl
    simp only [if_neg hid, if_neg htitle, Option.map_some', Option.getD_some,
      hname, heta]
    congr 1
    exact ih (i + 1) (fun s hs => hinv s (.tail _ hs))

/-! ## Lemmas: the trimmed agent list -/

theorem trimmedAgents_ne_nil (plan : RunPlan) :
    normalizePlanTrimmedAgents plan ≠ [] := by
  unfold normalizePlanTrimmedAgents
  split
  · exact List.cons_ne_nil _ _
  · next h => exact fun he => h (List.isEmpty_iff.mpr he)

theorem trimmedAgents_length (plan : RunPlan) :
    (normalizePlanTrimmedAgents plan).length ≤ MAX_AGENTS := by
  unfold normalizePlanTrimmedAgents
  split
  · decide
  · exact le_trans (List.length_take_le _ _) (le_refl _)

theorem trimmedAgents_mem_names {plan : RunPlan} {a : PlanAgent}
    (h : a ∈ normalizePlanTrimmedAgents plan) :
    a = defaultWriterAgent ∨
      a.name ∈ uniqueByLowercase
        ((plan.agents.map PlanAgent.name).filter (· ≠ "")) := by
  unfold normalizePlanTrimmedAgents at h
  split at h
  · rcases List.mem_singleton.mp h with rfl
    exact Or.inl rfl
  · refine Or.inr ?_
    have h1 : a ∈ normalizePlanAgents plan :=
      List.mem_of_mem_take h
    have h2 := normalizeAgentsGo_names plan.agents 0
      (uniqueByLowercase ((plan.agents.map PlanAgent.name).filter (· ≠ "")))
    rw [← h2]
    exact List.mem_map_of_mem _ h1

theorem trimmedAgents_names_ne {plan : RunPlan} {a : PlanAgent}
    (h : a ∈ normalizePlanTrimmedAgents plan) : a.name ≠ "" := by
  rcases trimmedAgents_mem_names h with rfl | h1
  · decide
  · exact (uniqueByLowercaseGo_mem _ _ h1).2.1

theorem trimmedAgents_roles {plan : RunPlan} {a : PlanAgent}
    (h : a ∈ normalizePlanTrimmedAgents plan) :
    AGENT_ARCHETYPES.contains a.role = true := by
  unfold normalizePlanTrimmedAgents at h
  split at h
  · rcases List.mem_singleton.mp h with rfl
    decide
  · exact normalizeAgentsGo_roles plan.agents 0 _ a
      (List.mem_of_mem_take h)

theorem trimmedAgents_pairwise (plan : RunPlan) :
    (normalizePlanTrimmedAgents plan).Pairwise
      (fun a b => lowerStr a.name ≠ lowerStr b.name) := by
  unfold normalizePlanTrimmedAgents
  split
  · exact List.pairwise_singleton _ _
  · refine List.Pairwise.sublist (List.take_sublist _ _) ?_
    have h2 := normalizeAgentsGo_names plan.agents 0
      (uniqueByLowercase ((plan.agents.map PlanAgent.name).filter (· ≠ "")))
    have h3 : (uniqueByLowercase
        ((plan.agents.map PlanAgent.name).filter (· ≠ ""))).Pairwise
        (fun a b => lowerStr a ≠ lowerStr b) :=
      uniqueByLowercaseGo_pairwise _ []
    rw [← h2] at h3
    exact List.Pairwise.of_map PlanAgent.name (fun a b hab => hab) h3

/-! ## Lemmas: the normalizer is a projection -/

theorem normalizePlan_outputs (plan : RunPlan) (prompt : String) :
    (normalizePlan plan prompt).outputs = buildOutputs plan.outputs := by
  unfold normalizePlan buildFallbackPlan
  split <;> rfl

theorem normalizePlan_inv (plan : RunPlan) (prompt : String)
    (hfix : ∀ x ∈ plan.outputs,
      normalizeDocName (normalizeDocName x) = normalizeDocName x) :
    PlanInv prompt (normalizePlan plan prompt) := by
  have houtB : buildOutputs (buildOutputs plan.outputs) =
      buildOutputs plan.outputs :=
    buildOutputs_fixed (buildOutputs_fix_of hfix)
  unfold normalizePlan
  split
  · exact
      { agentsNe := by show fallbackAgents ≠ []; decide
        agentsLen := by show fallbackAgents.length ≤ MAX_AGENTS; decide
        agentNamesNe := by show ∀ a ∈ fallbackAgents, a.name ≠ ""; decide
        agentNamesPw := by
          show fallbackAgents.Pairwise
            (fun a b => lowerStr a.name ≠ lowerStr b.name)
          decide
        agentRoles := by
          show ∀ a ∈ fallbackAgents,
            AGENT_ARCHETYPES.contains a.role = true
          decide
        stepsNe := by show fallbackSteps ≠ []; decide
        stepsLen := by show fallbackSteps.length ≤ MAX_STEPS; decide
        stepIds := by show ∀ s ∈ fallbackSteps, s.id ≠ ""; decide
        stepTitles := by show ∀ s ∈ fallbackSteps, s.title ≠ ""; decide
        stepAgents := by
          show ∀ s ∈ fallbackSteps, ∃ a ∈ fallbackAgents, a.name = s.agent
          decide
        outputsB := houtB
        questionsLen := by show ([] : List String).length ≤ 3; decide
        questionsNe := fun x hx => absurd hx (List.not_mem_nil x)
        goalDflt := fun h => h }
  · next hne =>
    have htA : normalizePlanTrimmedAgents plan ≠ [] :=
      trimmedAgents_ne_nil plan
    refine
      { agentsNe := htA
        agentsLen := trimmedAgents_length plan
        agentNamesNe := fun a ha => trimmedAgents_names_ne ha
        agentNamesPw := trimmedAgents_pairwise plan
        agentRoles := fun a ha => trimmedAgents_roles ha
        stepsNe := fun he => hne (List.isEmpty_iff.mpr he)
        stepsLen := ?_
        stepIds := fun s hs => (normalizeStepsGo_mem htA 0 _ s hs).1
        stepTitles := fun s hs => (normalizeStepsGo_mem htA 0 _ s hs).2.1
        stepAgents := fun s hs => (normalizeStepsGo_mem htA 0 _ s hs).2.2
        outputsB := houtB
        questionsLen := ?_
        questionsNe := ?_
        goalDflt := ?_ }
    · show (normalizePlanSteps plan).length ≤ MAX_STEPS
      unfold normalizePlanSteps
      rw [normalizeStepsGo_length]
      exact List.length_take_le _ _
    · exact le_trans (List.length_filter_le _ _) (List.length_take_le _ _)
    · intro x hx
      simpa using (List.mem_filter.mp hx).2
    · intro hg
      by_cases hp : plan.interpretedGoal = ""
      · rw [if_pos hp] at hg; exact hg
      · rw [if_neg hp] at hg; exact absurd hg hp

theorem normalizePlan_fixed {prompt : String} {q : RunPlan}
    (h : PlanInv prompt q) : normalizePlan q prompt = q := by
  have hnames : (q.agents.map PlanAgent.name).filter (· ≠ "") =
      q.agents.map PlanAgent.name :=
    List.filter_eq_self.mpr (fun a ha => by
      obtain ⟨x, hx, rfl⟩ := List.mem_map.mp ha
      simpa using h.agentNamesNe x hx)
  have hpwnames : (q.agents.map PlanAgent.name).Pairwise
      (fun a b => lowerStr a ≠ lowerStr b) :=
    List.Pairwise.map PlanAgent.name (fun a b hab => hab) h.agentNamesPw
  have huniq : uniqueByLowercase (q.agents.map PlanAgent.name) =
      q.agents.map PlanAgent.name :=
    uniqueByLowercaseGo_fixed _ []
      (fun v hv => by
        obtain ⟨x, hx, rfl⟩ := List.mem_map.mp hv
        exact h.agentNamesNe x hx)
      hpwnames (fun v _ hc => by cases hc)
  have hagents : normalizePlanAgents q = q.agents := by
    unfold normalizePlanAgents
    rw [hnames]
    show normalizeAgentsGo q.agents 0
      (uniqueByLowercase (q.agents.map PlanAgent.name)) = q.agents
    rw [huniq]
    exact normalizeAgentsGo_fixed q.agents 0 q.agents
      (fun a ha => find?_name_self h.agentNamesPw ha) h.agentRoles
  have htrim : normalizePlanTrimmedAgents q = q.agents := by
    unfold normalizePlanTrimmedAgents
    rw [hagents, List.take_of_length_le h.agentsLen,
      if_neg (fun hc => h.agentsNe (List.isEmpty_iff.mp hc))]
  have hsteps : normalizePlanSteps q = q.steps := by
    unfold normalizePlanSteps
    rw [htrim, List.take_of_length_le h.stepsLen]
    exact normalizeStepsGo_fixed q.agents 0 q.steps (fun s hs =>
      ⟨h.stepIds s hs, h.stepTitles s hs, h.stepAgents s hs⟩)
  have hgoal : (if q.interpretedGoal = "" then takeChars 120 prompt
      else q.interpretedGoal) = q.interpretedGoal := by
    by_cases hg : q.interpretedGoal = ""
    · rw [if_pos hg, h.goalDflt hg, hg]
    · rw [if_neg hg]
  have hquest : (q.questions.take 3).filter (· ≠ "") = q.questions := by
    rw [List.take_of_length_le h.questionsLen]
    exact List.filter_eq_self.mpr (fun a ha => by
      simpa using h.questionsNe a ha)
  unfold normalizePlan
  rw [hsteps, if_neg (fun hc => h.stepsNe (List.isEmpty_iff.mp hc)), hgoal,
    htrim, h.outputsB, hquest]

theorem normalizePlan_cases (plan : RunPlan) (prompt : String) :
    normalizePlan plan prompt = buildFallbackPlan prompt plan.outputs ∨
    ((normalizePlan plan prompt).steps = normalizePlanSteps plan ∧
      (normalizePlan plan prompt).agents = normalizePlanTrimmedAgents plan ∧
      (normalizePlan plan prompt).questions =
        (plan.questions.take 3).filter (· ≠ "")) := by
  unfold normalizePlan
  split
  · exact Or.inl rfl
  · exact Or.inr ⟨rfl, rfl, rfl⟩

/-! ## Claim theorems -/

/-- C1: for every candidate plan and every prompt, the plan returned by
`normalizePlan` has at most 8 steps, at most 4 agents, at most 3
questions, case-insensitively unique outputs containing the three
required names, at least one non-reserved output, and every step's agent
field names one of the plan's agents. -/
theorem c1_normalizePlan_invariants (plan : RunPlan) (prompt : String) :
    (normalizePlan plan prompt).steps.length ≤ MAX_STEPS ∧
    (normalizePlan plan prompt).agents.length ≤ MAX_AGENTS ∧
    (normalizePlan plan prompt).questions.length ≤ 3 ∧
    (normalizePlan plan prompt).outputs.Pairwise
      (fun a b => lowerStr a ≠ lowerStr b) ∧
    (∀ r ∈ REQUIRED_OUTPUTS,
      ∃ o ∈ (normalizePlan plan prompt).outputs, lowerStr o = lowerStr r) ∧
    (∃ o ∈ (normalizePlan plan prompt).outputs,
      RESERVED_LOWER.contains (lowerStr o) = false) ∧
    (∀ s ∈ (normalizePlan plan prompt).steps,
      ∃ a ∈ (normalizePlan plan prompt).agents, a.name = s.agent) := by
  have hout := normalizePlan_outputs plan prompt
  refine ⟨?_, ?_, ?_, ?_, ?_, ?_, ?_⟩
  · rcases normalizePlan_cases plan prompt with h | ⟨h, _, _⟩
    · rw [h]; show fallbackSteps.length ≤ MAX_STEPS; decide
    · rw [h]
      show (normalizePlanSteps plan).length ≤ MAX_STEPS
      unfold normalizePlanSteps
      rw [normalizeStepsGo_length]
      exact List.length_take_le _ _
  · rcases normalizePlan_cases plan prompt with h | ⟨_, h, _⟩
    · rw [h]; show fallbackAgents.length ≤ MAX_AGENTS; decide
    · rw [h]; exact trimmedAgents_length plan
  · rcases normalizePlan_cases plan prompt with h | ⟨_, _, h⟩
    · rw [h]; show ([] : List String).length ≤ 3; decide
    · rw [h]
      exact le_trans (List.length_filter_le _ _) (List.length_take_le _ _)
  · rw [hout]; exact buildOutputs_pairwise plan.outputs
  · intro r hr
    rw [hout]
    exact buildOutputs_required plan.outputs r hr
  · rw [hout]; exact buildOutputs_has_main plan.outputs
  · intro s hs
    rcases normalizePlan_cases plan prompt with h | ⟨h1, h2, _⟩
    · rw [h] at hs ⊢
      revert s
      show ∀ s ∈ fallbackSteps, ∃ a ∈ fallbackAgents, a.name = s.agent
      decide
    · rw [h1] at hs
      rw [h2]
      exact (normalizeStepsGo_mem (trimmedAgents_ne_nil plan) 0 _ s hs).2.2

/-- C1 witness: the invariants instantiated at a concrete plan, with
every bounded quantifier discharged at a concrete element. -/
theorem c1_normalizePlan_invariants_witness :
    (normalizePlan planOneStep "p").steps.length ≤ MAX_STEPS ∧
    (∃ o ∈ (normalizePlan planOneStep "p").outputs,
      lowerStr o = lowerStr "Next Actions.md") ∧
    (∃ a ∈ (normalizePlan planOneStep "p").agents,
      a.name = (⟨"step-1", "First", "", "Writer"⟩ : PlanStep).agent) :=
  ⟨(c1_normalizePlan_invariants planOneStep "p").1,
   (c1_normalizePlan_invariants planOneStep "p").2.2.2.2.1
     "Next Actions.md" (by decide),
   (c1_normalizePlan_invariants planOneStep "p").2.2.2.2.2.2
     ⟨"step-1", "First", "", "Writer"⟩ (by decide)⟩

/-- C5 counterexample: `normalizePlan` is not idempotent.  The candidate
output `"/ a.md"` normalizes to the output name `" a.md"` (the leading
slash is stripped, exposing a leading space the earlier trim did not
see); re-normalizing the plan trims that space, producing `"a.md"`, so a
second normalization changes the plan. -/
theorem c5_counterexample :
    normalizePlan (normalizePlan planSpacedOutput "g") "g" ≠
      normalizePlan planSpacedOutput "g" := by decide

/-- C5 amended: `normalizePlan` is idempotent on every plan whose output
names are stable under a second document-name normalization, i.e.
`normalizeDocName` is idempotent at each of the plan's candidate output
names.  (The counterexample shows the restriction is needed: a candidate
name whose normalized form starts with whitespace, such as `"/ a.md"`,
is trimmed differently the second time.) -/
theorem c5_amended_idempotent (p : RunPlan) (prompt : String)
    (hfix : ∀ x ∈ p.outputs,
      normalizeDocName (normalizeDocName x) = normalizeDocName x) :
    normalizePlan (normalizePlan p prompt) prompt =
      normalizePlan p prompt :=
  normalizePlan_fixed (normalizePlan_inv p prompt hfix)

/-- C5 witness: idempotence at a concrete plan whose output names are
stable under re-normalization. -/
theorem c5_amended_idempotent_witness :
    normalizePlan (normalizePlan planOneStep "p") "p" =
      normalizePlan planOneStep "p" :=
  c5_amended_idempotent planOneStep "p" (by decide)

/-- C7: a candidate plan with zero steps (clamping cannot produce steps
from none) normalizes to the fixed 4-step fallback plan with exactly 4
agents and the four fixed step titles. -/
theorem c7_zero_steps_fallback (plan : RunPlan) (prompt : String)
    (h : plan.steps = []) :
    normalizePlan plan prompt = buildFallbackPlan prompt plan.outputs ∧
    (normalizePlan plan prompt).steps.length = 4 ∧
    (normalizePlan plan prompt).agents.length = 4 ∧
    (normalizePlan plan prompt).steps.map PlanStep.title =
      ["Review workspace context", "Draft outline and key points",
        "Critique and refine", "Assemble artifacts"] := by
  have hsteps : normalizePlanSteps plan = [] := by
    unfold normalizePlanSteps
    rw [h]
    rfl
  have h1 : normalizePlan plan prompt =
      buildFallbackPlan prompt plan.outputs := by
    unfold normalizePlan
    rw [hsteps]
    rfl
  refine ⟨h1, ?_, ?_, ?_⟩ <;> rw [h1]
  · show fallbackSteps.length = 4; decide
  · show fallbackAgents.length = 4; decide
  · show fallbackSteps.map PlanStep.title = _; decide

/-- C7 witness: the empty candidate plan normalizes to the fallback plan. -/
theorem c7_zero_steps_fallback_witness :
    normalizePlan ⟨"", [], [], [], []⟩ "p" =
      buildFallbackPlan "p" ([] : List String) ∧
    (normalizePlan ⟨"", [], [], [], []⟩ "p").agents.length = 4 :=
  ⟨(c7_zero_steps_fallback ⟨"", [], [], [], []⟩ "p" rfl).1,
   (c7_zero_steps_fallback ⟨"", [], [], [], []⟩ "p" rfl).2.2.1⟩

/-- C10 counterexample: a normalized plan's output names need not be
fixed points of `normalizeDocName`, can contain `..`, can be silently
dropped by re-normalization in the write loop, and can make the
docs-path guard throw.  Candidate output `"a."` normalizes to `"a..md"`
(which contains `..` and re-normalizes to the empty name, so the write
loop drops it), and candidate `"/"` normalizes to `".md"`, whose
`extname` is empty, so `ensureDocsPath` rejects it and the whole run
fails. -/
theorem c10_counterexample :
    "a..md" ∈ (normalizePlan planBadOutputs "x").outputs ∧
    containsSubstr "a..md" ".." = true ∧
    normalizeDocName "a..md" = "" ∧
    ".md" ∈ (normalizePlan planBadOutputs "x").outputs ∧
    ensureDocsPathCheck ".md" = some "Only markdown files are allowed." ∧
    (runAgentModel jpNone engineOk cancelNever 12 [] none planBadOutputs
      "x" 0).error =
      some (.docPathError "Only markdown files are allowed.") := by
  decide

/-- C10 amended: every output name in a normalized plan is non-empty and
ends with `.md`.  (It need not be a fixed point of `normalizeDocName`,
may contain `..` — in which case the write loop silently drops it — and
the degenerate name `.md` makes the docs-path guard throw, as the
counterexample shows.) -/
theorem c10_amended_outputs_wellformed (plan : RunPlan) (prompt : String) :
    ∀ o ∈ (normalizePlan plan prompt).outputs,
      o ≠ "" ∧ endsWithStr o ".md" = true := by
  intro o ho
  rw [normalizePlan_outputs plan prompt] at ho
  exact ⟨buildOutputs_ne_empty ho, buildOutputs_endsWith ho⟩

/-- C10 witness: the well-formedness facts at a concrete output of a
concrete normalized plan. -/
theorem c10_amended_outputs_wellformed_witness :
    "Brief.md" ≠ "" ∧ endsWithStr "Brief.md" ".md" = true :=
  c10_amended_outputs_wellformed planOneStep "p" "Brief.md" (by decide)

theorem find?_beq_path {l : List ArtifactSpec} {o : String}
    {m : ArtifactSpec}
    (h : l.find? (fun a => lowerStr a.path == lowerStr o) = some m) :
    lowerStr m.path = lowerStr o := by
  have hb := List.find?_some h
  exact eq_of_beq hb

/-- C2: the reconciled artifact sequence pairs each planned output name,
in plan order, with exactly one artifact whose path matches it
case-insensitively (engine artifacts are preferred, else fallback
artifacts, else an empty-content artifact); in the concrete scenario
where the engine returned only `Brief.md` and `Sources.md`, the two
missing names are filled from the deterministic fallback templates. -/
theorem c2_reconciliation_complete :
    (∀ (plannedOutputs : List String) (raw fallback : List ArtifactSpec),
      List.Forall₂ (fun (a : ArtifactSpec) (o : String) =>
          lowerStr a.path = lowerStr o)
        (reconcileFinalArtifacts plannedOutputs raw fallback)
        plannedOutputs) ∧
    reconcileFinalArtifacts c2Plan.outputs
        (selectRawArtifacts (some c2EngineArtifacts) c2Fallback)
        c2Fallback =
      [⟨"Brief.md", "Engine brief"⟩,
       ⟨"Next Actions.md",
        "# Next Actions\n\n- Draft next steps based on the brief.\n- Validate open questions with stakeholders."⟩,
       ⟨"Open Questions.md", "# Open Questions\n\n- None noted."⟩,
       ⟨"Sources.md", "Engine sources"⟩] ∧
    (reconcileFinalArtifacts c2Plan.outputs
        (selectRawArtifacts (some c2EngineArtifacts) c2Fallback)
        c2Fallback).get? 1 = c2Fallback.get? 1 ∧
    (reconcileFinalArtifacts c2Plan.outputs
        (selectRawArtifacts (some c2EngineArtifacts) c2Fallback)
        c2Fallback).get? 2 = c2Fallback.get? 2 := by
  refine ⟨?_, by decide, by decide, by decide⟩
  intro plannedOutputs raw fallback
  induction plannedOutputs with
  | nil => exact List.Forall₂.nil
  | cons o rest ih =>
    refine List.Forall₂.cons ?_ ih
    show lowerStr
      (match raw.find?
          (fun (a : ArtifactSpec) => lowerStr a.path == lowerStr o) with
        | some m => m
        | none =>
          (fallback.find?
            (fun (a : ArtifactSpec) =>
              lowerStr a.path == lowerStr o)).getD ⟨o, ""⟩).path =
      lowerStr o
    cases hf : raw.find? (fun a => lowerStr a.path == lowerStr o) with
    | some m =>
      show lowerStr m.path = lowerStr o
      exact find?_beq_path hf
    | none =>
      cases hg : fallback.find? (fun a => lowerStr a.path == lowerStr o) with
      | some m =>
        show lowerStr m.path = lowerStr o
        exact find?_beq_path hg
      | none => rfl

/-- C8: `selectMainArtifact` picks the first written artifact whose name
is not reserved; if every artifact is reserved it picks the first
artifact; if nothing was written it returns the default `Brief.md`; and
on `["Next Actions.md","Sources.md","Plan.md"]` it picks `"Plan.md"`. -/
theorem c8_main_artifact_selection :
    selectMainArtifact [] = DEFAULT_MAIN_OUTPUT ∧
    (∀ (lre : List String) (p : String) (rest : List String),
      (∀ x ∈ lre, RESERVED_LOWER.contains (lowerStr x) = true) →
      RESERVED_LOWER.contains (lowerStr p) = false →
      selectMainArtifact (lre ++ p :: rest) = p) ∧
    (∀ (p : String) (rest : List String),
      (∀ x ∈ p :: rest, RESERVED_LOWER.contains (lowerStr x) = true) →
      selectMainArtifact (p :: rest) = p) ∧
    selectMainArtifact ["Next Actions.md", "Sources.md", "Plan.md"] =
      "Plan.md" := by
  refine ⟨by decide, ?_, ?_, by decide⟩
  · intro lre p rest hres hp
    have hfind : ∀ (l₁ : List String),
        (∀ x ∈ l₁, RESERVED_LOWER.contains (lowerStr x) = true) →
        (l₁ ++ p :: rest).find?
          (fun q => !(RESERVED_LOWER.contains (lowerStr q))) = some p := by
      intro l₁
      induction l₁ with
      | nil =>
        intro _
        rw [List.nil_append, List.find?_cons]
        rw [show (!(RESERVED_LOWER.contains (lowerStr p))) = true by
          rw [hp]; rfl]
      | cons x l ih =>
        intro hall
        rw [List.cons_append, List.find?_cons]
        rw [show (!(RESERVED_LOWER.contains (lowerStr x))) = false by
          rw [hall x (.head _)]; rfl]
        exact ih (fun y hy => hall y (.tail _ hy))
    unfold selectMainArtifact
    rw [hfind lre hres]
  · intro p rest hall
    have hfind : (p :: rest).find?
        (fun q => !(RESERVED_LOWER.contains (lowerStr q))) = none :=
      List.find?_eq_none.mpr (fun x hx => by rw [hall x hx]; simp)
    unfold selectMainArtifact
    rw [hfind]

/-- C8 witness: the selection rules applied at concrete artifact lists,
discharging the reservedness hypotheses concretely. -/
theorem c8_main_artifact_selection_witness :
    selectMainArtifact
        (["Next Actions.md", "Sources.md"] ++ "Plan.md" :: []) =
      "Plan.md" ∧
    selectMainArtifact ("Outline.md" :: ["Critique.md"]) = "Outline.md" :=
  ⟨c8_main_artifact_selection.2.1 ["Next Actions.md", "Sources.md"]
     "Plan.md" [] (by decide) (by decide),
   c8_main_artifact_selection.2.2.1 "Outline.md" ["Critique.md"]
     (by decide)⟩

/-- C6: plan synthesis never fails — on an unsuccessful engine reply, or
a reply whose lenient brace-extraction parse yields no object,
`createPlan` returns the fallback plan built with no pre-seeded outputs;
otherwise it returns the normalized coerced plan. -/
theorem c6_plan_synthesis_never_fails
    (jp : String → Option (List (String × JsonVal)))
    (reply : EngineReply) (prompt : String) :
    (reply.ok = false →
      createPlanModel jp reply prompt = buildFallbackPlan prompt []) ∧
    (reply.ok = true → parseJsonM jp reply.text = none →
      createPlanModel jp reply prompt = buildFallbackPlan prompt []) ∧
    (∀ fields, reply.ok = true → parseJsonM jp reply.text = some fields →
      createPlanModel jp reply prompt =
        normalizePlan (coerceRunPlan fields) prompt) := by
  refine ⟨?_, ?_, ?_⟩
  · intro h
    unfold createPlanModel
    rw [if_pos h]
  · intro h hp
    unfold createPlanModel
    rw [if_neg (by rw [h]; simp), hp]
  · intro fields h hp
    unfold createPlanModel
    rw [if_neg (by rw [h]; simp), hp]

/-- C6 witness: the failure branch and the success branch at concrete
collaborators, with the hypotheses discharged by evaluation. -/
theorem c6_plan_synthesis_never_fails_witness :
    createPlanModel jpNone ⟨false, "", none⟩ "p" =
      buildFallbackPlan "p" [] ∧
    createPlanModel jpObjEmpty ⟨true, braceTextPair, none⟩ "p" =
      normalizePlan (coerceRunPlan []) "p" :=
  ⟨(c6_plan_synthesis_never_fails jpNone ⟨false, "", none⟩ "p").1 rfl,
   (c6_plan_synthesis_never_fails jpObjEmpty ⟨true, braceTextPair, none⟩
     "p").2.2 [] rfl rfl⟩

/-! ## Lemmas: the run model -/

theorem execSteps_turnCount_le (maxTurns : Nat) (engine : Nat → EngineReply)
    (cancel : Nat → Bool) :
    ∀ (steps : List PlanStep) (st : RunState), st.turnCount ≤ maxTurns →
      (execSteps maxTurns engine cancel steps st).1.turnCount ≤ maxTurns := by
  intro steps
  induction steps with
  | nil => intro st h; exact h
  | cons s rest ih =>
    intro st h
    rw [execSteps]
    by_cases hc : cancel st.polls
    · rw [if_pos hc]; exact h
    · rw [if_neg hc]
      by_cases hb : maxTurns < st.turnCount + 1
      · rw [if_pos hb]; exact h
      · rw [if_neg hb]
        by_cases hr : (engine st.turnCount).ok = false
        · rw [if_pos hr]
          exact Nat.not_lt.mp hb
        · rw [if_neg hr]
          exact ih _ (Nat.not_lt.mp hb)

theorem execSteps_budget_calls (maxTurns : Nat) (engine : Nat → EngineReply)
    (cancel : Nat → Bool) :
    ∀ (steps : List PlanStep) (st : RunState), st.turnCount ≤ maxTurns →
      (execSteps maxTurns engine cancel steps st).2 =
        some RunError.turnBudgetExceeded →
      (execSteps maxTurns engine cancel steps st).1.turnCount = maxTurns := by
  intro steps
  induction steps with
  | nil =>
    intro st h hcontra
    simp [execSteps] at hcontra
  | cons s rest ih =>
    intro st h hcontra
    rw [execSteps] at hcontra ⊢
    by_cases hc : cancel st.polls
    · rw [if_pos hc] at hcontra; simp at hcontra
    · rw [if_neg hc] at hcontra ⊢
      by_cases hb : maxTurns < st.turnCount + 1
      · rw [if_pos hb] at hcontra ⊢
        show st.turnCount = maxTurns
        omega
      · rw [if_neg hb] at hcontra ⊢
        by_cases hr : (engine st.turnCount).ok = false
        · rw [if_pos hr] at hcontra; simp at hcontra
        · rw [if_neg hr] at hcontra ⊢
          exact ih _ (Nat.not_lt.mp hb) hcontra

theorem execSteps_ok_counts (maxTurns : Nat) (engine : Nat → EngineReply)
    (cancel : Nat → Bool) :
    ∀ (steps : List PlanStep) (st : RunState),
      (execSteps maxTurns engine cancel steps st).2 = none →
      (execSteps maxTurns engine cancel steps st).1.polls =
          st.polls + steps.length ∧
        (execSteps maxTurns engine cancel steps st).1.turnCount =
          st.turnCount + steps.length := by
  intro steps
  induction steps with
  | nil => intro st _; exact ⟨rfl, rfl⟩
  | cons s rest ih =>
    intro st hok
    rw [execSteps] at hok ⊢
    by_cases hc : cancel st.polls
    · rw [if_pos hc] at hok; simp at hok
    · rw [if_neg hc] at hok ⊢
      by_cases hb : maxTurns < st.turnCount + 1
      · rw [if_pos hb] at hok; simp at hok
      · rw [if_neg hb] at hok ⊢
        by_cases hr : (engine st.turnCount).ok = false
        · rw [if_pos hr] at hok; simp at hok
        · rw [if_neg hr] at hok ⊢
          obtain ⟨h1, h2⟩ := ih _ hok
          constructor
          · rw [h1]
            show st.polls + 1 + rest.length = st.polls + (s :: rest).length
            rw [List.length_cons]
            omega
          · rw [h2]
            show st.turnCount + 1 + rest.length =
              st.turnCount + (s :: rest).length
            rw [List.length_cons]
            omega

theorem writeArtifacts_no_budget (cancel : Nat → Bool) :
    ∀ (arts : List ArtifactSpec) (ws : WriteState),
      (writeArtifacts cancel arts ws).2 ≠
        some RunError.turnBudgetExceeded := by
  intro arts
  induction arts with
  | nil => intro ws h; simp [writeArtifacts] at h
  | cons a rest ih =>
    intro ws h
    rw [writeArtifacts] at h
    by_cases hc : cancel ws.polls
    · rw [if_pos hc] at h; simp at h
    · rw [if_neg hc] at h
      by_cases hn : normalizeDocName a.path = ""
      · rw [if_pos hn] at h; exact ih _ h
      · rw [if_neg hn] at h
        cases he : ensureDocsPathCheck (normalizeDocName a.path) with
        | some msg => rw [he] at h; simp at h
        | none => rw [he] at h; exact ih _ h

theorem writeArtifacts_ok_polls (cancel : Nat → Bool) :
    ∀ (arts : List ArtifactSpec) (ws : WriteState),
      (writeArtifacts cancel arts ws).2 = none →
      (writeArtifacts cancel arts ws).1.polls = ws.polls + arts.length := by
  intro arts
  induction arts with
  | nil => intro ws _; rfl
  | cons a rest ih =>
    intro ws hok
    rw [writeArtifacts] at hok ⊢
    by_cases hc : cancel ws.polls
    · rw [if_pos hc] at hok; simp at hok
    · rw [if_neg hc] at hok ⊢
      by_cases hn : normalizeDocName a.path = ""
      · rw [if_pos hn] at hok ⊢
        rw [ih _ hok]
        show ws.polls + 1 + rest.length = ws.polls + (a :: rest).length
        rw [List.length_cons]
        omega
      · rw [if_neg hn] at hok ⊢
        cases he : ensureDocsPathCheck (normalizeDocName a.path) with
        | some msg => rw [he] at hok; simp at hok
        | none =>
          rw [he] at hok
          dsimp only at hok ⊢
          rw [ih _ hok]
          show ws.polls + 1 + rest.length = ws.polls + (a :: rest).length
          rw [List.length_cons]
          omega

theorem runWritePhase_calls (cancel : Nat → Bool)
    (arts : List ArtifactSpec) (st : RunState) :
    (runWritePhase cancel arts st).calls = st.turnCount := by
  unfold runWritePhase
  cases hw : writeArtifacts cancel arts ⟨st.polls, []⟩ with
  | mk ws err => cases err <;> rfl

theorem runWritePhase_error (cancel : Nat → Bool)
    (arts : List ArtifactSpec) (st : RunState) :
    (runWritePhase cancel arts st).error =
      (writeArtifacts cancel arts ⟨st.polls, []⟩).2 := by
  unfold runWritePhase
  cases hw : writeArtifacts cancel arts ⟨st.polls, []⟩ with
  | mk ws err => cases err <;> rfl

theorem runWritePhase_polls (cancel : Nat → Bool)
    (arts : List ArtifactSpec) (st : RunState) :
    (runWritePhase cancel arts st).polls =
      (writeArtifacts cancel arts ⟨st.polls, []⟩).1.polls := by
  unfold runWritePhase
  cases hw : writeArtifacts cancel arts ⟨st.polls, []⟩ with
  | mk ws err => cases err <;> rfl

theorem runArtifactPhase_budget
    (jp : String → Option (List (String × JsonVal)))
    (engine : Nat → EngineReply) (cancel : Nat → Bool) (maxTurns : Nat)
    (sources : List String) (clarifications : Option String)
    (np : RunPlan) (st : RunState) (h : st.turnCount ≤ maxTurns) :
    (runArtifactPhase jp engine cancel maxTurns sources clarifications np
      st).calls ≤ maxTurns ∧
    ((runArtifactPhase jp engine cancel maxTurns sources clarifications np
        st).error = some RunError.turnBudgetExceeded →
      (runArtifactPhase jp engine cancel maxTurns sources clarifications np
        st).calls = maxTurns) := by
  unfold runArtifactPhase
  by_cases hc : cancel st.polls
  · rw [if_pos hc]
    exact ⟨h, fun hcontra => by simp at hcontra⟩
  · rw [if_neg hc]
    by_cases hb : maxTurns < st.turnCount + 1
    · rw [if_pos hb]
      refine ⟨h, fun _ => ?_⟩
      show st.turnCount = maxTurns
      omega
    · rw [if_neg hb]
      constructor
      · rw [runWritePhase_calls]
        show st.turnCount + 1 ≤ maxTurns
        omega
      · intro herr
        rw [runWritePhase_error] at herr
        exact absurd herr (writeArtifacts_no_budget cancel _ _)

theorem runArtifactPhase_ok_polls
    (jp : String → Option (List (String × JsonVal)))
    (engine : Nat → EngineReply) (cancel : Nat → Bool) (maxTurns : Nat)
    (sources : List String) (clarifications : Option String)
    (np : RunPlan) (st : RunState)
    (h : (runArtifactPhase jp engine cancel maxTurns sources clarifications
      np st).error = none) :
    (runArtifactPhase jp engine cancel maxTurns sources clarifications np
      st).polls = st.polls + 1 + np.outputs.length := by
  unfold runArtifactPhase at h ⊢
  by_cases hc : cancel st.polls
  · rw [if_pos hc] at h; simp at h
  · rw [if_neg hc] at h ⊢
    by_cases hb : maxTurns < st.turnCount + 1
    · rw [if_pos hb] at h; simp at h
    · rw [if_neg hb] at h ⊢
      rw [runWritePhase_error] at h
      rw [runWritePhase_polls, writeArtifacts_ok_polls cancel _ _ h]
      show st.polls + 1 +
        (runFinalArtifacts jp engine sources clarifications np
          st).length = st.polls + 1 + np.outputs.length
      congr 1
      unfold runFinalArtifacts reconcileFinalArtifacts
      exact List.length_map _ _

/-- C3 counterexample: with budget 2 and a 2-step plan, the run does fail
with the turn-budget error before the 3rd (artifact-phase) call, but the
number of Prompt Engine calls observed equals the step count (2) — it is
not smaller, contradicting the claim's final clause. -/
theorem c3_counterexample :
    (runAgentModel jpNone engineOk cancelNever 2 [] none planTwoSteps "p"
      0).error = some RunError.turnBudgetExceeded ∧
    (runAgentModel jpNone engineOk cancelNever 2 [] none planTwoSteps "p"
      0).calls = 2 ∧
    (normalizePlan planTwoSteps "p").steps.length = 2 ∧
    ¬((runAgentModel jpNone engineOk cancelNever 2 [] none planTwoSteps "p"
      0).calls <
      (normalizePlan planTwoSteps "p").steps.length) := by decide

/-- C3 amended: every Prompt Engine call first consumes one unit of the
shared turn budget (default 12), so a run never makes more calls than the
budget, and a run that fails with the turn-budget error has consumed the
whole budget — the failing call is not made.  A run with budget 2 over a
2-step plan fails with the budget error before the 3rd (artifact-phase)
call: exactly 2 calls are observed — equal to (not fewer than) the step
count, and fewer than the 3 calls the run needs. -/
theorem c3_amended_turn_budget :
    MAX_TURNS = 12 ∧
    (∀ (jp : String → Option (List (String × JsonVal)))
      (engine : Nat → EngineReply) (cancel : Nat → Bool) (maxTurns : Nat)
      (sources : List String) (clarifications : Option String)
      (plan : RunPlan) (prompt : String) (startingStepIndex : Nat),
      (runAgentModel jp engine cancel maxTurns sources clarifications plan
        prompt startingStepIndex).calls ≤ maxTurns ∧
      ((runAgentModel jp engine cancel maxTurns sources clarifications plan
          prompt startingStepIndex).error =
          some RunError.turnBudgetExceeded →
        (runAgentModel jp engine cancel maxTurns sources clarifications
          plan prompt startingStepIndex).calls = maxTurns)) ∧
    runAgentModel jpNone engineOk cancelNever 2 [] none planTwoSteps "p"
      0 =
      ⟨2, 3,
        [⟨"step-1", "First", "Writer", "notes"⟩,
         ⟨"step-2", "Second", "Writer", "notes"⟩], [],
        some RunError.turnBudgetExceeded, none⟩ ∧
    (normalizePlan planTwoSteps "p").steps.length = 2 := by
  refine ⟨rfl, ?_, by decide, by decide⟩
  intro jp engine cancel maxTurns sources clarifications plan prompt si
  unfold runAgentModel
  cases hE : execSteps maxTurns engine cancel
    ((normalizePlan plan prompt).steps.drop si) ⟨0, 0, []⟩ with
  | mk st err =>
    have h1 : st.turnCount ≤ maxTurns := by
      have h2 := execSteps_turnCount_le maxTurns engine cancel
        ((normalizePlan plan prompt).steps.drop si) ⟨0, 0, []⟩
        (Nat.zero_le _)
      rw [hE] at h2
      exact h2
    cases err with
    | some e =>
      refine ⟨h1, fun herr => ?_⟩
      have he : e = RunError.turnBudgetExceeded := by simpa using herr
      subst he
      have h3 := execSteps_budget_calls maxTurns engine cancel
        ((normalizePlan plan prompt).steps.drop si) ⟨0, 0, []⟩
        (Nat.zero_le _)
      rw [hE] at h3
      exact h3 rfl
    | none =>
      exact runArtifactPhase_budget jp engine cancel maxTurns sources
        clarifications (normalizePlan plan prompt) st h1

/-- C3 witness: the general budget bound applied at a concrete
budget-exceeding run, the implication discharged by evaluation. -/
theorem c3_amended_turn_budget_witness :
    (runAgentModel jpNone engineOk cancelNever 2 [] none planTwoSteps "p"
      0).calls ≤ 2 ∧
    (runAgentModel jpNone engineOk cancelNever 2 [] none planTwoSteps "p"
      0).calls = 2 :=
  ⟨(c3_amended_turn_budget.2.1 jpNone engineOk cancelNever 2 [] none
      planTwoSteps "p" 0).1,
   (c3_amended_turn_budget.2.1 jpNone engineOk cancelNever 2 [] none
      planTwoSteps "p" 0).2 (by decide)⟩

/-- C4: the cancellation predicate is checked before each step, and a
true check aborts the run with the cancelled error before any Prompt
Engine call for that step; concretely, when cancellation becomes true
after step 1 of a 3-step plan completes, exactly 1 StepResult is
recorded, exactly 1 engine call was made (none for steps 2 and 3), no
artifact is written, and the run terminates cancelled before artifact
reconciliation. -/
theorem c4_cancellation_between_steps :
    (∀ (maxTurns : Nat) (engine : Nat → EngineReply) (cancel : Nat → Bool)
      (step : PlanStep) (rest : List PlanStep) (st : RunState),
      cancel st.polls = true →
      execSteps maxTurns engine cancel (step :: rest) st =
        ({ st with polls := st.polls + 1 }, some RunError.cancelled)) ∧
    runAgentModel jpNone engineOk cancelFromOne 12 [] none planThreeSteps
      "p" 0 =
      ⟨1, 2, [⟨"step-1", "First", "Writer", "notes"⟩], [],
        some RunError.cancelled, none⟩ := by
  refine ⟨?_, by decide⟩
  intro maxTurns engine cancel step rest st h
  rw [execSteps, if_pos h]

/-- C4 witness: a true cancellation check at the head of the step loop
aborts without an engine call, at concrete inputs. -/
theorem c4_cancellation_between_steps_witness :
    execSteps 12 engineOk cancelAlways
      [⟨"step-1", "First", "", "Writer"⟩] ⟨0, 0, []⟩ =
      (⟨0, 1, []⟩, some RunError.cancelled) :=
  c4_cancellation_between_steps.1 12 engineOk cancelAlways
    ⟨"step-1", "First", "", "Writer"⟩ [] ⟨0, 0, []⟩ rfl

/-- C9 counterexample: the cancellation predicate is polled at a third
kind of point besides the two the claim allows.  In a 1-step run whose
predicate is false at its first two evaluations (poll 0, before the only
step, and poll 1, before artifact reconciliation) and true from the
third on, the run still terminates cancelled — the write loop polls the
predicate before each artifact write, after the artifact-phase engine
call has already been made (2 calls observed, nothing written). -/
theorem c9_counterexample :
    cancelFromTwo 0 = false ∧ cancelFromTwo 1 = false ∧
    (runAgentModel jpNone engineOk cancelFromTwo 12 [] none planOneStep
      "p" 0).error = some RunError.cancelled ∧
    (runAgentModel jpNone engineOk cancelFromTwo 12 [] none planOneStep
      "p" 0).calls = 2 ∧
    (runAgentModel jpNone engineOk cancelFromTwo 12 [] none planOneStep
      "p" 0).written = [] := by decide

/-- C9 amended: the cancellation predicate is polled at three kinds of
fixed points — before each step's engine call, once before the artifact
phase, and once before each artifact write — so a run that completes
without error evaluates it exactly (steps run) + 1 + (planned outputs)
times. -/
theorem c9_amended_poll_points
    (jp : String → Option (List (String × JsonVal)))
    (engine : Nat → EngineReply) (cancel : Nat → Bool) (maxTurns : Nat)
    (sources : List String) (clarifications : Option String)
    (plan : RunPlan) (prompt : String) (startingStepIndex : Nat)
    (h : (runAgentModel jp engine cancel maxTurns sources clarifications
      plan prompt startingStepIndex).error = none) :
    (runAgentModel jp engine cancel maxTurns sources clarifications plan
      prompt startingStepIndex).polls =
      ((normalizePlan plan prompt).steps.drop startingStepIndex).length +
        1 + (normalizePlan plan prompt).outputs.length := by
  unfold runAgentModel at h ⊢
  cases hE : execSteps maxTurns engine cancel
    ((normalizePlan plan prompt).steps.drop startingStepIndex)
    ⟨0, 0, []⟩ with
  | mk st err =>
    rw [hE] at h
    cases err with
    | some e => simp at h
    | none =>
      have hcounts := execSteps_ok_counts maxTurns engine cancel
        ((normalizePlan plan prompt).steps.drop startingStepIndex)
        ⟨0, 0, []⟩ (by rw [hE])
      rw [hE] at hcounts
      have hp : st.polls = ((normalizePlan plan
          prompt).steps.drop startingStepIndex).length := by
        have h4 := hcounts.1
        simpa using h4
      rw [runArtifactPhase_ok_polls jp engine cancel maxTurns sources
        clarifications (normalizePlan plan prompt) st h, hp]

/-- C9 witness: the three-point poll count at a concrete successful run
(2 steps + 1 artifact poll + 4 artifact writes). -/
theorem c9_amended_poll_points_witness :
    (runAgentModel jpNone engineOk cancelNever 12 [] none planTwoSteps "p"
      0).polls =
      ((normalizePlan planTwoSteps "p").steps.drop 0).length + 1 +
        (normalizePlan planTwoSteps "p").outputs.length :=
  c9_amended_poll_points jpNone engineOk cancelNever 12 [] none
    planTwoSteps "p" 0 (by decide)

end Worker
